import Mathlib

/-!
# fast_life: the parallel Game-of-Life engine (`class Game`, src/main.cc)

A shallow embedding of `struct Lifeform` and `class Game`.

* C++ `int` values are modelled by `Int`; signed overflow (undefined behaviour
  in C++) is outside the model.
* `std::vector<Lifeform> m_obj` is a `List Lifeform`; `m_obj[i]` with `i`
  outside `[0, size)` is undefined behaviour and is modelled by `none`.
* Undefined behaviour (an index outside the vector, an integer division by
  zero) and a failing `assert` have no result in the model: the operation is
  `none` there. `none` stands for "no defined result", not for an error that
  the program detects or reports.
* `for (int i = lo; i < hi; i++)` loops are modelled by `forLoop`, which runs
  the body `(hi - lo).toNat` times with the counter starting at `lo`.
* The random source `flip(gen)` is a stream `flip : Nat → Bool`; the `k`-th
  cell constructed consumes draw number `k`.
-/

namespace FastLife

/-- The cell type `struct Lifeform` (main.cc 42-51). -/
structure Lifeform where
  current : Bool
  next : Bool
deriving DecidableEq, Repr

/-- The constructor `Lifeform(bool value) : current(value), next(false)`. -/
def Lifeform.new (value : Bool) : Lifeform :=
  { current := value, next := false }

/-- The data members of `class Game` that the engine's sequential code uses.
`m_threads` records the `(y_start, y_end)` arguments each worker thread was
started with. -/
structure Game where
  m_height : Int
  m_width : Int
  m_obj : List Lifeform
  m_threads : List (Int × Int)
deriving DecidableEq, Repr

/-- A counted loop `for (int i = lo; i < hi; i++) body(i)` run for `n`
iterations from counter value `i`; an iteration that fails aborts the loop. -/
def forLoop {σ : Type} (body : Int → σ → Option σ) : Nat → Int → σ → Option σ
  | 0, _, s => some s
  | n + 1, i, s => (body i s).bind (forLoop body n (i + 1))

/-- The vector access `m_obj[i]` for an `int` index. -/
def Game.cell? (g : Game) (i : Int) : Option Lifeform :=
  if 0 ≤ i then g.m_obj[i.toNat]? else none

/-- The store `m_obj[i] = o`. -/
def Game.setCell (g : Game) (i : Int) (o : Lifeform) : Game :=
  { g with m_obj := g.m_obj.set i.toNat o }

/-- The member `Game::alive_at` (main.cc 107-128). -/
def Game.alive_at (g : Game) (x y : Int) : Option Bool :=
  let x := if x = -1 then g.m_width - 1 else if x = g.m_width then 0 else x
  let y := if y = -1 then g.m_height - 1 else if y = g.m_height then 0 else y
  (g.cell? (y * g.m_width + x)).map Lifeform.current

/-- The member `Game::at` (main.cc 130-133). -/
def Game.cell_at (g : Game) (x y : Int) : Option Lifeform :=
  g.cell? (y * g.m_width + x)

/-- The conversion of a `bool` to `int` in `num += alive_at(..)`. -/
def boolToInt (b : Bool) : Int := if b then 1 else 0

/-- The eight-term sum `num` of `Game::set_alive_at` (main.cc 144-152). -/
def Game.count_alive (g : Game) (x y : Int) : Option Int := do
  let num : Int := 0
  let num := num + boolToInt (← g.alive_at (x - 1) (y - 1))
  let num := num + boolToInt (← g.alive_at x (y - 1))
  let num := num + boolToInt (← g.alive_at (x + 1) (y - 1))
  let num := num + boolToInt (← g.alive_at (x + 1) y)
  let num := num + boolToInt (← g.alive_at (x + 1) (y + 1))
  let num := num + boolToInt (← g.alive_at x (y + 1))
  let num := num + boolToInt (← g.alive_at (x - 1) (y + 1))
  let num := num + boolToInt (← g.alive_at (x - 1) y)
  pure num

/-- The write through the reference `o` at the end of `Game::set_alive_at`
(main.cc 156-166): `next` is only assigned when the cell changes state. -/
def Lifeform.decide_next (o : Lifeform) (num : Int) : Lifeform :=
  if o.current then
    if num ≠ 3 ∧ num ≠ 2 then { o with next := false } else o
  else if num = 3 then { o with next := true }
  else o

/-- The member `Game::set_alive_at` (main.cc 140-167). -/
def Game.set_alive_at (g : Game) (x y : Int) : Option Game :=
  if ¬ (x ≥ 0 ∧ x < g.m_width) then none
  else if ¬ (y ≥ 0 ∧ y < g.m_height) then none
  else do
    let num ← g.count_alive x y
    let o ← g.cell? (y * g.m_width + x)
    pure (g.setCell (y * g.m_width + x) (o.decide_next num))

/-- The member `Game::calculate_next_state` (main.cc 169-178). -/
def Game.calculate_next_state (g : Game) (y_start y_end : Int) : Option Game :=
  forLoop
    (fun y g1 => forLoop (fun x g2 => g2.set_alive_at x y) (g1.m_width - 0).toNat 0 g1)
    (y_end - y_start).toNat y_start g

/-- The loop body of `Game::update_state`: `o.current = o.next` on `m_obj[y * m_width + x]`. -/
def Game.commit_at (g : Game) (x y : Int) : Option Game := do
  let o ← g.cell? (y * g.m_width + x)
  pure (g.setCell (y * g.m_width + x) { o with current := o.next })

/-- The member `Game::update_state` (main.cc 180-190). -/
def Game.update_state (g : Game) (y_start y_end : Int) : Option Game :=
  forLoop
    (fun y g1 => forLoop (fun x g2 => g2.commit_at x y) (g1.m_width - 0).toNat 0 g1)
    (y_end - y_start).toNat y_start g

/-- The seeding loops of the constructor (main.cc 67-73): every cell is
`Lifeform(flip(gen))`, appended in row-major order. -/
def seed_cells (flip : Nat → Bool) (height width : Int) : Option (List Lifeform) :=
  forLoop
    (fun _ objs => forLoop
      (fun _ objs1 => some (objs1 ++ [Lifeform.new (flip objs1.length)]))
      (width - 0).toNat 0 objs)
    (height - 0).toNat 0 []

/-- The C++ expression `a / b` on `int`: the quotient truncated towards zero.
For `b = 0` the expression is undefined behaviour and has no result here. -/
def int_div (a b : Int) : Option Int :=
  if b = 0 then none else some (Int.tdiv a b)

/-- The C++ expression `a % b` on `int`: the remainder of the truncated
division. For `b = 0` the expression is undefined behaviour and has no result
here. -/
def int_mod (a b : Int) : Option Int :=
  if b = 0 then none else some (Int.tmod a b)

/-- The partitioning loop of the constructor (main.cc 75-89): the list of
`(y_start, y_end)` pairs handed to the worker threads. `y_size` is
`m_height / THREADS` (main.cc 75), the last block adds `m_height % THREADS`
(main.cc 84) and checks the `assert` (main.cc 85). The source does not test
`THREADS` before dividing: for `THREADS = 0` the division is undefined
behaviour, and so this function has no result there. -/
def thread_ranges (THREADS height : Int) : Option (List (Int × Int)) := do
  let y_size ← int_div height THREADS
  forLoop
    (fun i thr =>
      let y_start := i * y_size
      let y_end := y_start + y_size
      if i = THREADS - 1 then do
        let y_end := y_end + (← int_mod height THREADS)
        if y_end = height then some (thr ++ [(y_start, y_end)]) else none
      else some (thr ++ [(y_start, y_end)]))
    (THREADS - 0).toNat 0 []

/-- The constructor `Game::Game(int height, int width)` (main.cc 56-90) for a
given value of the global `THREADS`. The barriers are constructed with
`THREADS` expected parties, which requires `THREADS ≥ 0`. -/
def Game.new (THREADS height width : Int) (flip : Nat → Bool) : Option Game :=
  if THREADS < 0 then none
  else do
    let objs ← seed_cells flip height width
    let thr ← thread_ranges THREADS height
    pure { m_height := height, m_width := width, m_obj := objs, m_threads := thr }

/-- One phase of the worker protocol run by every worker in turn:
`f y_start y_end` for each worker's row range, in the order of the list. -/
def Game.run_phase (f : Game → Int → Int → Option Game) :
    List (Int × Int) → Game → Option Game
  | [], g => some g
  | r :: rs, g => (f g r.1 r.2).bind (Game.run_phase f rs)

/-- One iteration of `Game::update_thr` (main.cc 199-203) across all workers:
between the barriers every worker runs `calculate_next_state` on its range,
then every worker runs `update_state` on its range. -/
def Game.generation (g : Game) : Option Game :=
  (Game.run_phase Game.calculate_next_state g.m_threads g).bind
    (fun g1 => Game.run_phase Game.update_state g1.m_threads g1)

/-- The state after `n` complete generations. -/
def Game.generations : Nat → Game → Option Game
  | 0, g => some g
  | n + 1, g => (Game.generation g).bind (Game.generations n)

/-- The grid invariant of the data model: positive dimensions and a cell
array of `m_width * m_height` cells. -/
structure Game.WF (g : Game) : Prop where
  width_pos : 0 < g.m_width
  height_pos : 0 < g.m_height
  size_eq : (g.m_obj.length : Int) = g.m_width * g.m_height

/-- The game `g1` has the dimensions, worker ranges and array size of `g`. -/
def Game.SameShape (g g1 : Game) : Prop :=
  g1.m_height = g.m_height ∧ g1.m_width = g.m_width ∧
    g1.m_threads = g.m_threads ∧ g1.m_obj.length = g.m_obj.length

/-- The game `g1` is `g` with the cell transformer `f` applied to exactly the
in-range cells selected by `P`. -/
def Game.Updated (g g1 : Game) (P : Int → Int → Prop)
    (f : Int → Int → Lifeform → Lifeform) : Prop :=
  g.SameShape g1 ∧
    ∀ x y o, 0 ≤ x → x < g.m_width → 0 ≤ y → y < g.m_height →
      g.cell_at x y = some o →
        (P x y → g1.cell_at x y = some (f x y o)) ∧
        (¬ P x y → g1.cell_at x y = some o)

/-! ### Reference notions of the specification -/

/-- The `current` value of the cell at the torus position of `(x, y)`:
coordinates are reduced modulo the dimensions. -/
def Game.alive_on_torus (g : Game) (x y : Int) : Bool :=
  match g.cell_at (x % g.m_width) (y % g.m_height) with
  | some o => o.current
  | none => false

/-- The offsets of the eight neighbours of a cell. -/
def neighbour_offsets : List (Int × Int) :=
  [(-1, -1), (0, -1), (1, -1), (1, 0), (1, 1), (0, 1), (-1, 1), (-1, 0)]

/-- The number of alive cells among the eight toroidal neighbours of `(x, y)`. -/
def Game.torus_neighbours (g : Game) (x y : Int) : Nat :=
  neighbour_offsets.countP (fun d => g.alive_on_torus (x + d.1) (y + d.2))

/-- The cell transformer of the compute phase on the grid `g`. -/
def Game.compute_cell (g : Game) (x y : Int) (o : Lifeform) : Lifeform :=
  o.decide_next (g.torus_neighbours x y)

/-- The cell transformer of the commit phase. -/
def commit_cell (_x _y : Int) (o : Lifeform) : Lifeform :=
  { o with current := o.next }

/-! ### Concrete grids -/

/-- The seed stream of the 3x3 test pattern whose rows are dead, alive, dead. -/
def blinker_seed (k : Nat) : Bool := k % 3 == 1

/-- The freshly constructed 3x3 grid with rows dead, alive, dead and one worker. -/
def blinker_grid : Game :=
  { m_height := 3
    m_width := 3
    m_obj := [Lifeform.new false, Lifeform.new true, Lifeform.new false,
              Lifeform.new false, Lifeform.new true, Lifeform.new false,
              Lifeform.new false, Lifeform.new true, Lifeform.new false]
    m_threads := [(0, 3)] }

/-- The row range of worker `k` in closed form: block `k` starts at
`k * (height / THREADS)`; the last block ends at `height`. -/
def worker_range (THREADS height : Int) (k : Int) : Int × Int :=
  (k * Int.tdiv height THREADS,
    if k = THREADS - 1 then height
    else k * Int.tdiv height THREADS + Int.tdiv height THREADS)

/-- The row `y` lies in one of the half-open ranges of `rs`. -/
def in_ranges (rs : List (Int × Int)) (y : Int) : Prop :=
  ∃ r ∈ rs, r.1 ≤ y ∧ y < r.2

/-- The worker ranges stored in `g` lie inside the grid and together cover
exactly the rows `[0, m_height)`. -/
def Game.Partitioned (g : Game) : Prop :=
  (∀ r ∈ g.m_threads, 0 ≤ r.1 ∧ r.2 ≤ g.m_height) ∧
    ∀ y, in_ranges g.m_threads y ↔ (0 ≤ y ∧ y < g.m_height)

/-- The cell transformer of one full generation on the grid `g`: compute, then
commit. -/
def Game.generation_cell (g : Game) (x y : Int) (o : Lifeform) : Lifeform :=
  commit_cell x y (g.compute_cell x y o)

/-- The game `g` is a state at the start of a compute phase reachable from
construction: the freshly seeded grid or the grid after some number of
complete generations. -/
def Game.Reachable (THREADS height width : Int) (flip : Nat → Bool) (g : Game) : Prop :=
  ∃ g0 n, Game.new THREADS height width flip = some g0 ∧ Game.generations n g0 = some g

/-- What holds of every reachable start-of-phase state with the given
dimensions: the grid is well formed and partitioned, and a dead cell has
`next = false`. -/
def Game.StartInv (height width : Int) (g : Game) : Prop :=
  g.WF ∧ g.Partitioned ∧ g.m_height = height ∧ g.m_width = width ∧
    ∀ x y o, 0 ≤ x → x < g.m_width → 0 ≤ y → y < g.m_height →
      g.cell_at x y = some o → o.current = false → o.next = false

/-- Conway's rule: an alive cell survives with 2 or 3 alive neighbours, a dead
cell is born with exactly 3. -/
def life_rule (alive : Bool) (n : Nat) : Bool :=
  if alive then (n == 2 || n == 3) else n == 3

/-- The Game-of-Life successor of the cell `(x, y)` of `g` on the torus. -/
def Game.life_successor (g : Game) (x y : Int) : Bool :=
  life_rule (g.alive_on_torus x y) (g.torus_neighbours x y)

/-- The Game-of-Life successor generation of `g`, in the order of the cell array. -/
def Game.life_successors (g : Game) : List Bool :=
  (List.range g.m_obj.length).map
    (fun (i : Nat) => g.life_successor ((i : Int) % g.m_width) ((i : Int) / g.m_width))

/-- The 3x3 test grid after one generation of the engine. -/
def blinker_grid_next : Game :=
  { m_height := 3
    m_width := 3
    m_obj := [⟨true, true⟩, ⟨false, false⟩, ⟨true, true⟩,
              ⟨true, true⟩, ⟨false, false⟩, ⟨true, true⟩,
              ⟨true, true⟩, ⟨false, false⟩, ⟨true, true⟩]
    m_threads := [(0, 3)] }

/-! ### The worker/controller protocol as a transition system

The threads of `Game` are modelled by interleaving: every worker is at one of
the five statements of the loop body of `Game::update_thr` (main.cc 199-203),
the controller is inside or outside `Game::tick` (main.cc 135-138), and a
`std::barrier` lets its parties pass once all of them have arrived. The model
covers the lifetime of a `Game` before its destructor runs, so `m_thr_running`
is true and the branch at main.cc 207-212 is not taken. -/

/-- The statement of the loop body of `update_thr` a worker is at. At a
barrier the worker has arrived and is blocked in `arrive_and_wait`. -/
inductive WorkerPc where
  | next_state_barrier
  | calculate
  | update_barrier
  | update
  | tick_barrier
deriving DecidableEq, Repr

/-- The state of the engine: the game, the position of every worker (in the
order of `m_threads`), whether the controller is blocked inside `tick()`, and
how many calls of `tick()` have returned. -/
structure Engine where
  game : Game
  workers : List WorkerPc
  in_tick : Bool
  ticks_returned : Nat
deriving DecidableEq, Repr

/-- The steps of the protocol. -/
inductive Event where
  | worker (i : Nat)
  | pass_next_state_barrier
  | pass_update_barrier
  | call_tick
  | pass_tick_barrier
deriving DecidableEq, Repr

/-- The engine right after construction: every worker thread has been started
and has arrived at `m_next_state_barrier` (main.cc 199); the controller has not
called `tick()`. -/
def Engine.start (g : Game) : Engine :=
  { game := g
    workers := g.m_threads.map (fun _ => WorkerPc.next_state_barrier)
    in_tick := false
    ticks_returned := 0 }

/-- One step of the protocol; `none` when the step is not enabled.
* `worker i`: worker `i` runs the phase it is at on its own rows and arrives
  at the following barrier (main.cc 200-201 and 202-203);
* `pass_next_state_barrier`, `pass_update_barrier`: all `THREADS` workers have
  arrived, the barrier releases them;
* `call_tick`: the controller calls `tick()` and arrives at `m_tick_barrier`;
* `pass_tick_barrier`: all workers and the controller have arrived at
  `m_tick_barrier` (`THREADS + 1` parties); `tick()` returns and every worker
  loops back to main.cc 199. -/
def Engine.step (e : Engine) : Event → Option Engine
  | .worker i =>
    match e.workers[i]?, e.game.m_threads[i]? with
    | some WorkerPc.calculate, some r =>
      (e.game.calculate_next_state r.1 r.2).map (fun g1 =>
        { e with game := g1, workers := e.workers.set i WorkerPc.update_barrier })
    | some WorkerPc.update, some r =>
      (e.game.update_state r.1 r.2).map (fun g1 =>
        { e with game := g1, workers := e.workers.set i WorkerPc.tick_barrier })
    | _, _ => none
  | .pass_next_state_barrier =>
    if e.workers.all (fun pc => pc = WorkerPc.next_state_barrier) then
      some { e with workers := e.workers.map (fun _ => WorkerPc.calculate) }
    else none
  | .pass_update_barrier =>
    if e.workers.all (fun pc => pc = WorkerPc.update_barrier) then
      some { e with workers := e.workers.map (fun _ => WorkerPc.update) }
    else none
  | .call_tick =>
    if e.in_tick then none else some { e with in_tick := true }
  | .pass_tick_barrier =>
    if e.in_tick ∧ e.workers.all (fun pc => pc = WorkerPc.tick_barrier) then
      some { e with
        workers := e.workers.map (fun _ => WorkerPc.next_state_barrier)
        in_tick := false
        ticks_returned := e.ticks_returned + 1 }
    else none

/-- A schedule run from a state, step by step. -/
def Engine.run : List Event → Engine → Option Engine
  | [], e => some e
  | ev :: evs, e => (e.step ev).bind (Engine.run evs)

/-- What the controller reads from the grid: the `current` value of every cell. -/
def Engine.snapshot (e : Engine) : List Bool :=
  e.game.m_obj.map Lifeform.current

/-- A 3x2 grid whose `next` fields are unrelated to its `current` fields, with
two workers of one row each. -/
def uneven_grid : Game :=
  { m_height := 2
    m_width := 3
    m_obj := [⟨true, false⟩, ⟨false, true⟩, ⟨true, true⟩,
              ⟨false, false⟩, ⟨true, false⟩, ⟨false, true⟩]
    m_threads := [(0, 1), (1, 2)] }

/-! # Theorems -/

/-! ## Index arithmetic -/

theorem idx_nonneg {w x y : Int} (hw : 0 < w) (hx : 0 ≤ x) (hy : 0 ≤ y) :
    0 ≤ y * w + x := by
  have := mul_nonneg hy hw.le
  omega

theorem idx_lt {w h x y : Int} (hx : x < w) (hy : y < h)
    (hw : 0 < w) : y * w + x < w * h := by
  have h1 : (y + 1) * w ≤ h * w := mul_le_mul_of_nonneg_right (by omega) hw.le
  have h2 : (y + 1) * w = y * w + w := by ring
  have h3 : h * w = w * h := mul_comm _ _
  omega

theorem idx_inj {w x y x1 y1 : Int} (hx0 : 0 ≤ x) (hx : x < w)
    (hx0' : 0 ≤ x1) (hx1 : x1 < w) (h : y1 * w + x1 = y * w + x) :
    x1 = x ∧ y1 = y := by
  have hw : 0 < w := by omega
  rcases lt_trichotomy y1 y with hlt | heq | hgt
  · exfalso
    have h1 : (y1 + 1) * w ≤ y * w := mul_le_mul_of_nonneg_right (by omega) hw.le
    have h2 : (y1 + 1) * w = y1 * w + w := by ring
    omega
  · subst heq
    exact ⟨by omega, rfl⟩
  · exfalso
    have h1 : (y + 1) * w ≤ y1 * w := mul_le_mul_of_nonneg_right (by omega) hw.le
    have h2 : (y + 1) * w = y * w + w := by ring
    omega

/-! ## Cell access on a well-formed grid -/

theorem Game.cell?_eq_some_of_bounds (g : Game) {i : Int} (h0 : 0 ≤ i)
    (h1 : i < (g.m_obj.length : Int)) : ∃ o, g.cell? i = some o := by
  have hlt : i.toNat < g.m_obj.length := by omega
  exact ⟨g.m_obj[i.toNat], by simp [Game.cell?, h0, List.getElem?_eq_getElem hlt]⟩

theorem Game.WF.cell_at_some {g : Game} (wf : g.WF) {x y : Int}
    (hx0 : 0 ≤ x) (hx : x < g.m_width) (hy0 : 0 ≤ y) (hy : y < g.m_height) :
    ∃ o, g.cell_at x y = some o := by
  unfold Game.cell_at
  apply Game.cell?_eq_some_of_bounds
  · exact idx_nonneg wf.width_pos hx0 hy0
  · rw [wf.size_eq]
    exact idx_lt hx hy wf.width_pos

/-- The coordinate wrap of `alive_at` agrees with the remainder modulo the
dimension for coordinates at most one step outside the grid. -/
theorem wrap_eq_emod {w x : Int} (hw : 0 < w) (h0 : -1 ≤ x) (h1 : x ≤ w) :
    (if x = -1 then w - 1 else if x = w then 0 else x) = x % w := by
  by_cases hm : x = -1
  · subst hm
    rw [if_pos rfl]
    have : (-1 : Int) % w = w - 1 := by
      have h2 : (-1 : Int) = (w - 1) + w * (-1) := by ring
      rw [h2, Int.add_mul_emod_self_left]
      exact Int.emod_eq_of_lt (by omega) (by omega)
    exact this.symm
  · rw [if_neg hm]
    by_cases hwx : x = w
    · subst hwx
      rw [if_pos rfl]
      exact (Int.emod_self).symm
    · rw [if_neg hwx]
      exact (Int.emod_eq_of_lt (by omega) (by omega)).symm

theorem Game.alive_at_eq_cell_at (g : Game) (hw : 0 < g.m_width)
    (hh : 0 < g.m_height) {x y : Int} (hx0 : -1 ≤ x) (hx : x ≤ g.m_width)
    (hy0 : -1 ≤ y) (hy : y ≤ g.m_height) :
    g.alive_at x y
      = (g.cell_at (x % g.m_width) (y % g.m_height)).map Lifeform.current := by
  unfold Game.alive_at Game.cell_at
  simp only [wrap_eq_emod hw hx0 hx, wrap_eq_emod hh hy0 hy]

/-! ## Counted loops -/

/-- Invariant rule for `forLoop`: an invariant established at the start and
carried by every iteration holds at the end, and the loop does not fail. -/
theorem forLoop_inv {σ : Type} (body : Int → σ → Option σ) (Inv : Int → σ → Prop) :
    ∀ (n : Nat) (lo : Int) (s : σ), Inv lo s →
      (∀ i t, lo ≤ i → i < lo + n → Inv i t → ∃ t1, body i t = some t1 ∧ Inv (i + 1) t1) →
      ∃ s1, forLoop body n lo s = some s1 ∧ Inv (lo + n) s1 := by
  intro n
  induction n with
  | zero =>
    intro lo s h0 _
    exact ⟨s, rfl, by simpa using h0⟩
  | succ k ih =>
    intro lo s h0 hstep
    obtain ⟨t1, hb, hi⟩ := hstep lo s le_rfl (by push_cast; omega) h0
    obtain ⟨s1, hl, hinv⟩ := ih (lo + 1) t1 hi (fun i t hlo hhi hI =>
      hstep i t (by omega) (by push_cast; omega) hI)
    refine ⟨s1, ?_, ?_⟩
    · simp [forLoop, hb, hl]
    · have e : lo + ((k + 1 : Nat) : Int) = lo + 1 + (k : Int) := by push_cast; ring
      rw [e]
      exact hinv

/-! ## Pointwise description of grid updates -/

theorem Game.SameShape.same_refl (g : Game) : g.SameShape g := ⟨rfl, rfl, rfl, rfl⟩

theorem Game.SameShape.trans {g g1 g2 : Game} (h1 : g.SameShape g1)
    (h2 : g1.SameShape g2) : g.SameShape g2 :=
  ⟨h2.1.trans h1.1, h2.2.1.trans h1.2.1, h2.2.2.1.trans h1.2.2.1,
    h2.2.2.2.trans h1.2.2.2⟩

theorem Game.SameShape.wf {g g1 : Game} (h : g.SameShape g1) (wf : g.WF) : g1.WF := by
  obtain ⟨hh, hw, _, hl⟩ := h
  exact ⟨by rw [hw]; exact wf.width_pos, by rw [hh]; exact wf.height_pos,
    by rw [hl, hw, hh]; exact wf.size_eq⟩

theorem Game.setCell_sameShape (g : Game) (i : Int) (o : Lifeform) :
    g.SameShape (g.setCell i o) :=
  ⟨rfl, rfl, rfl, by simp [Game.setCell]⟩

/-- Reading a cell after a store into the cell `(x, y)`. -/
theorem Game.WF.cell_at_setCell {g : Game} (wf : g.WF) {x y : Int} (o : Lifeform)
    (hx0 : 0 ≤ x) (hx : x < g.m_width) (hy0 : 0 ≤ y) (hy : y < g.m_height)
    {x1 y1 : Int} (hx0' : 0 ≤ x1) (hx1 : x1 < g.m_width) (hy0' : 0 ≤ y1) :
    ((g.setCell (y * g.m_width + x) o).cell_at x1 y1 = some o ∧ x1 = x ∧ y1 = y) ∨
    ((g.setCell (y * g.m_width + x) o).cell_at x1 y1 = g.cell_at x1 y1 ∧
      ¬ (x1 = x ∧ y1 = y)) := by
  have hi0 := idx_nonneg wf.width_pos hx0 hy0
  have hi1 : y * g.m_width + x < (g.m_obj.length : Int) := by
    rw [wf.size_eq]; exact idx_lt hx hy wf.width_pos
  have hj0 := idx_nonneg wf.width_pos hx0' hy0'
  by_cases he : x1 = x ∧ y1 = y
  · left
    obtain ⟨rfl, rfl⟩ := he
    refine ⟨?_, rfl, rfl⟩
    have hlt : (y1 * g.m_width + x1).toNat < g.m_obj.length := by omega
    simp [Game.cell_at, Game.cell?, Game.setCell, hi0, List.getElem?_set_self hlt]
  · right
    refine ⟨?_, he⟩
    have hne : (y * g.m_width + x).toNat ≠ (y1 * g.m_width + x1).toNat := by
      intro hc
      have : y1 * g.m_width + x1 = y * g.m_width + x := by omega
      exact he (idx_inj hx0 hx hx0' hx1 this)
    simp [Game.cell_at, Game.cell?, Game.setCell, hj0, List.getElem?_set_ne hne]

theorem Game.Updated.nothing (g : Game) (f : Int → Int → Lifeform → Lifeform) :
    g.Updated g (fun _ _ => False) f :=
  ⟨Game.SameShape.same_refl g, fun _ _ _ _ _ _ _ ho => ⟨fun h => h.elim, fun _ => ho⟩⟩

/-- The selecting predicate of `Updated` only matters on in-range cells. -/
theorem Game.Updated.congr {g g1 : Game} {P Q : Int → Int → Prop}
    {f : Int → Int → Lifeform → Lifeform} (h : g.Updated g1 P f)
    (hPQ : ∀ x y, 0 ≤ x → x < g.m_width → 0 ≤ y → y < g.m_height → (P x y ↔ Q x y)) :
    g.Updated g1 Q f := by
  refine ⟨h.1, fun x y o hx0 hx hy0 hy ho => ?_⟩
  have := h.2 x y o hx0 hx hy0 hy ho
  rw [hPQ x y hx0 hx hy0 hy] at this
  exact this

/-- The two nested loops over rows `[a, b)` and columns `[0, m_width)`: when
the body at `(x, y)` applies `f` to the cell `(x, y)`, the loops apply `f` to
every cell of the rows `[a, b)` and to nothing else. -/
theorem nested_loop_updated (g : Game) (wf : g.WF)
    (body : Int → Int → Game → Option Game) (f : Int → Int → Lifeform → Lifeform)
    (hbody : ∀ (g1 : Game) (P : Int → Int → Prop) (x y : Int),
      0 ≤ x → x < g.m_width → 0 ≤ y → y < g.m_height →
      g.Updated g1 P f → ¬ P x y →
      ∃ g2, body x y g1 = some g2 ∧
        g.Updated g2 (fun x1 y1 => P x1 y1 ∨ (x1 = x ∧ y1 = y)) f)
    (a b : Int) (ha : 0 ≤ a) (hb : b ≤ g.m_height) :
    ∃ g1, forLoop
        (fun y t => forLoop (fun x t1 => body x y t1) (t.m_width - 0).toNat 0 t)
        (b - a).toNat a g = some g1 ∧
      g.Updated g1 (fun _ y => a ≤ y ∧ y < b) f := by
  have hw := wf.width_pos
  obtain ⟨g1, hrun, hinv⟩ := forLoop_inv
    (fun y t => forLoop (fun x t1 => body x y t1) (t.m_width - 0).toNat 0 t)
    (fun y t => g.Updated t (fun _ y1 => a ≤ y1 ∧ y1 < y) f)
    (b - a).toNat a g
    ((Game.Updated.nothing g f).congr (fun x y _ _ _ _ => by
      constructor
      · intro h; exact h.elim
      · intro h; omega))
    (by
      intro y t hya hyb hI
      have hyb' : y < b := by omega
      have htw : t.m_width = g.m_width := hI.1.2.1
      obtain ⟨t1, hrun1, hinv1⟩ := forLoop_inv (fun x t1 => body x y t1)
        (fun x t1 => g.Updated t1
          (fun x1 y1 => (a ≤ y1 ∧ y1 < y) ∨ (y1 = y ∧ x1 < x)) f)
        (t.m_width - 0).toNat 0 t
        (hI.congr (fun x1 y1 hx0 _ _ _ => by
          constructor
          · intro h; exact Or.inl h
          · intro h
            rcases h with h | h
            · exact h
            · omega))
        (by
          intro x t1 hx0 hxw hI1
          have hxw' : x < g.m_width := by omega
          obtain ⟨g2, hb2, hu2⟩ := hbody t1 _ x y hx0 hxw' (by omega) (by omega) hI1
            (by omega)
          refine ⟨g2, hb2, hu2.congr (fun x1 y1 _ _ _ _ => ?_)⟩
          constructor
          · intro h
            rcases h with (h | h) | h
            · exact Or.inl h
            · exact Or.inr ⟨h.1, by omega⟩
            · exact Or.inr ⟨h.2, by omega⟩
          · intro h
            rcases h with h | ⟨h1, h2⟩
            · exact Or.inl (Or.inl h)
            · by_cases hx1 : x1 = x
              · exact Or.inr ⟨hx1, h1⟩
              · exact Or.inl (Or.inr ⟨h1, by omega⟩))
      refine ⟨t1, hrun1, hinv1.congr (fun x1 y1 _ hx1 _ _ => ?_)⟩
      constructor
      · intro h
        rcases h with h | h <;> omega
      · intro h
        by_cases hy1 : y1 = y
        · exact Or.inr ⟨hy1, by omega⟩
        · exact Or.inl (by omega))
  refine ⟨g1, hrun, hinv.congr (fun x1 y1 _ _ _ _ => ?_)⟩
  constructor <;> intro h <;> omega

/-- One store of `f x y o` into a cell not yet selected extends the selection
by that cell. -/
theorem Game.Updated.store {g g1 : Game} (wf : g.WF) {P : Int → Int → Prop}
    {f : Int → Int → Lifeform → Lifeform} (h : g.Updated g1 P f) {x y : Int}
    (hx0 : 0 ≤ x) (hx : x < g.m_width) (hy0 : 0 ≤ y) (hy : y < g.m_height)
    (hP : ¬ P x y) {o : Lifeform} (ho : g.cell_at x y = some o) :
    g.Updated (g1.setCell (y * g.m_width + x) (f x y o))
      (fun x1 y1 => P x1 y1 ∨ (x1 = x ∧ y1 = y)) f := by
  have wf1 : g1.WF := h.1.wf wf
  have hw1 : g1.m_width = g.m_width := h.1.2.1
  have hh1 : g1.m_height = g.m_height := h.1.1
  refine ⟨h.1.trans (Game.setCell_sameShape g1 _ _), ?_⟩
  intro x1 y1 o1 hx0' hx1 hy0' hy1 ho1
  have hcases := wf1.cell_at_setCell (x := x) (y := y) (f x y o) hx0 (by omega) hy0
    (by omega) hx0' (show x1 < g1.m_width by omega) hy0'
  rw [hw1] at hcases
  rcases hcases with ⟨hc, rfl, rfl⟩ | ⟨hc, hne⟩
  · have : o1 = o := by
      rw [ho] at ho1
      exact (Option.some.inj ho1).symm
    subst this
    exact ⟨fun _ => hc, fun hn => (hn (Or.inr ⟨rfl, rfl⟩)).elim⟩
  · have h2 := h.2 x1 y1 o1 hx0' hx1 hy0' hy1 ho1
    constructor
    · intro hp
      rcases hp with hp | hp
      · rw [hc]; exact h2.1 hp
      · exact (hne hp).elim
    · intro hn
      rw [hc]
      exact h2.2 (fun hp => hn (Or.inl hp))

/-- A cell not yet selected still holds its original value. -/
theorem Game.Updated.cell_at_of_not {g g1 : Game} {P : Int → Int → Prop}
    {f : Int → Int → Lifeform → Lifeform} (h : g.Updated g1 P f) {x y : Int}
    (hx0 : 0 ≤ x) (hx : x < g.m_width) (hy0 : 0 ≤ y) (hy : y < g.m_height)
    (hP : ¬ P x y) {o : Lifeform} (ho : g.cell_at x y = some o) :
    g1.cell? (y * g1.m_width + x) = some o := by
  have h2 := (h.2 x y o hx0 hx hy0 hy ho).2 hP
  unfold Game.cell_at at h2
  exact h2

/-- A transformer that keeps `current` leaves every in-range `current` as it was. -/
theorem Game.Updated.current_eq {g g1 : Game} (wf : g.WF) {P : Int → Int → Prop}
    {f : Int → Int → Lifeform → Lifeform} (h : g.Updated g1 P f)
    (hf : ∀ x y o, (f x y o).current = o.current) {x y : Int}
    (hx0 : 0 ≤ x) (hx : x < g.m_width) (hy0 : 0 ≤ y) (hy : y < g.m_height) :
    (g1.cell_at x y).map Lifeform.current = (g.cell_at x y).map Lifeform.current := by
  obtain ⟨o, ho⟩ := wf.cell_at_some hx0 hx hy0 hy
  have h2 := h.2 x y o hx0 hx hy0 hy ho
  by_cases hp : P x y
  · rw [h2.1 hp, ho]; simp [hf]
  · rw [h2.2 hp, ho]

theorem Game.Updated.alive_at_eq {g g1 : Game} (wf : g.WF) {P : Int → Int → Prop}
    {f : Int → Int → Lifeform → Lifeform} (h : g.Updated g1 P f)
    (hf : ∀ x y o, (f x y o).current = o.current) {x y : Int}
    (hx0 : -1 ≤ x) (hx : x ≤ g.m_width) (hy0 : -1 ≤ y) (hy : y ≤ g.m_height) :
    g1.alive_at x y = g.alive_at x y := by
  have wf1 : g1.WF := h.1.wf wf
  have hw1 : g1.m_width = g.m_width := h.1.2.1
  have hh1 : g1.m_height = g.m_height := h.1.1
  rw [g1.alive_at_eq_cell_at wf1.width_pos wf1.height_pos (by omega) (by omega)
      (by omega) (by omega),
    g.alive_at_eq_cell_at wf.width_pos wf.height_pos hx0 hx hy0 hy, hw1, hh1]
  exact h.current_eq wf hf (Int.emod_nonneg _ (by have := wf.width_pos; omega))
    (Int.emod_lt_of_pos _ wf.width_pos)
    (Int.emod_nonneg _ (by have := wf.height_pos; omega))
    (Int.emod_lt_of_pos _ wf.height_pos)

/-- On a well-formed grid `alive_at` one step around a cell reads the torus. -/
theorem Game.WF.alive_at_eq_torus {g : Game} (wf : g.WF) {x y : Int}
    (hx0 : -1 ≤ x) (hx : x ≤ g.m_width) (hy0 : -1 ≤ y) (hy : y ≤ g.m_height) :
    g.alive_at x y = some (g.alive_on_torus x y) := by
  rw [g.alive_at_eq_cell_at wf.width_pos wf.height_pos hx0 hx hy0 hy]
  obtain ⟨o, ho⟩ := wf.cell_at_some
    (Int.emod_nonneg x (by have := wf.width_pos; omega))
    (Int.emod_lt_of_pos x wf.width_pos)
    (Int.emod_nonneg y (by have := wf.height_pos; omega))
    (Int.emod_lt_of_pos y wf.height_pos)
  simp [Game.alive_on_torus, ho]

/-- The sum `num` of `set_alive_at` is the number of alive toroidal neighbours. -/
theorem Game.WF.count_alive_eq {g : Game} (wf : g.WF) {x y : Int}
    (hx0 : 0 ≤ x) (hx : x < g.m_width) (hy0 : 0 ≤ y) (hy : y < g.m_height) :
    g.count_alive x y = some (g.torus_neighbours x y : Int) := by
  unfold Game.count_alive
  rw [wf.alive_at_eq_torus (x := x - 1) (y := y - 1) (by omega) (by omega) (by omega) (by omega),
    wf.alive_at_eq_torus (x := x) (y := y - 1) (by omega) (by omega) (by omega) (by omega),
    wf.alive_at_eq_torus (x := x + 1) (y := y - 1) (by omega) (by omega) (by omega) (by omega),
    wf.alive_at_eq_torus (x := x + 1) (y := y) (by omega) (by omega) (by omega) (by omega),
    wf.alive_at_eq_torus (x := x + 1) (y := y + 1) (by omega) (by omega) (by omega) (by omega),
    wf.alive_at_eq_torus (x := x) (y := y + 1) (by omega) (by omega) (by omega) (by omega),
    wf.alive_at_eq_torus (x := x - 1) (y := y + 1) (by omega) (by omega) (by omega) (by omega),
    wf.alive_at_eq_torus (x := x - 1) (y := y) (by omega) (by omega) (by omega) (by omega)]
  simp only [Game.torus_neighbours, neighbour_offsets, List.countP_cons, List.countP_nil,
    boolToInt, Option.pure_def, Option.bind_eq_bind, Option.some_bind, Option.some.injEq,
    Int.sub_eq_add_neg, add_zero]
  push_cast
  ring

theorem Lifeform.decide_next_current (o : Lifeform) (num : Int) :
    (o.decide_next num).current = o.current := by
  unfold Lifeform.decide_next
  split_ifs <;> rfl

theorem Game.compute_cell_current (g : Game) (x y : Int) (o : Lifeform) :
    (g.compute_cell x y o).current = o.current :=
  Lifeform.decide_next_current o _

/-- During the compute phase the neighbour sum is the one of the starting grid. -/
theorem Game.Updated.count_alive_mid_phase {g g1 : Game} (wf : g.WF) {P : Int → Int → Prop}
    (h : g.Updated g1 P g.compute_cell) {x y : Int}
    (hx0 : 0 ≤ x) (hx : x < g.m_width) (hy0 : 0 ≤ y) (hy : y < g.m_height) :
    g1.count_alive x y = some (g.torus_neighbours x y : Int) := by
  rw [← wf.count_alive_eq hx0 hx hy0 hy]
  have hf := g.compute_cell_current
  unfold Game.count_alive
  rw [h.alive_at_eq wf hf (x := x - 1) (y := y - 1) (by omega) (by omega) (by omega) (by omega),
    h.alive_at_eq wf hf (x := x) (y := y - 1) (by omega) (by omega) (by omega) (by omega),
    h.alive_at_eq wf hf (x := x + 1) (y := y - 1) (by omega) (by omega) (by omega) (by omega),
    h.alive_at_eq wf hf (x := x + 1) (y := y) (by omega) (by omega) (by omega) (by omega),
    h.alive_at_eq wf hf (x := x + 1) (y := y + 1) (by omega) (by omega) (by omega) (by omega),
    h.alive_at_eq wf hf (x := x) (y := y + 1) (by omega) (by omega) (by omega) (by omega),
    h.alive_at_eq wf hf (x := x - 1) (y := y + 1) (by omega) (by omega) (by omega) (by omega),
    h.alive_at_eq wf hf (x := x - 1) (y := y) (by omega) (by omega) (by omega) (by omega)]

/-- The effect of `set_alive_at` in the middle of a compute phase. -/
theorem Game.Updated.set_alive_at {g g1 : Game} (wf : g.WF) {P : Int → Int → Prop}
    (h : g.Updated g1 P g.compute_cell) {x y : Int}
    (hx0 : 0 ≤ x) (hx : x < g.m_width) (hy0 : 0 ≤ y) (hy : y < g.m_height)
    (hP : ¬ P x y) :
    ∃ g2, g1.set_alive_at x y = some g2 ∧
      g.Updated g2 (fun x1 y1 => P x1 y1 ∨ (x1 = x ∧ y1 = y)) g.compute_cell := by
  obtain ⟨o, ho⟩ := wf.cell_at_some hx0 hx hy0 hy
  have hw1 : g1.m_width = g.m_width := h.1.2.1
  have hh1 : g1.m_height = g.m_height := h.1.1
  refine ⟨g1.setCell (y * g.m_width + x) (g.compute_cell x y o), ?_,
    h.store wf hx0 hx hy0 hy hP ho⟩
  have hc := h.cell_at_of_not hx0 hx hy0 hy hP ho
  rw [hw1] at hc
  have hn := h.count_alive_mid_phase wf hx0 hx hy0 hy
  unfold Game.set_alive_at
  rw [if_neg (by rw [hw1]; exact not_not.mpr ⟨hx0, hx⟩),
    if_neg (by rw [hh1]; exact not_not.mpr ⟨hy0, hy⟩)]
  simp [hn, hc, hw1, Game.compute_cell]

/-- The effect of the commit of one cell in the middle of a commit phase. -/
theorem Game.Updated.commit_at {g g1 : Game} (wf : g.WF) {P : Int → Int → Prop}
    (h : g.Updated g1 P commit_cell) {x y : Int}
    (hx0 : 0 ≤ x) (hx : x < g.m_width) (hy0 : 0 ≤ y) (hy : y < g.m_height)
    (hP : ¬ P x y) :
    ∃ g2, g1.commit_at x y = some g2 ∧
      g.Updated g2 (fun x1 y1 => P x1 y1 ∨ (x1 = x ∧ y1 = y)) commit_cell := by
  obtain ⟨o, ho⟩ := wf.cell_at_some hx0 hx hy0 hy
  have hw1 : g1.m_width = g.m_width := h.1.2.1
  refine ⟨g1.setCell (y * g.m_width + x) (commit_cell x y o), ?_,
    h.store wf hx0 hx hy0 hy hP ho⟩
  have hc := h.cell_at_of_not hx0 hx hy0 hy hP ho
  rw [hw1] at hc
  unfold Game.commit_at
  simp [hc, hw1, commit_cell]

/-- The compute phase on rows `[a, b)` of a well-formed grid returns, and applies
`compute_cell` to exactly the cells of these rows. -/
theorem Game.WF.calculate_next_state_updated {g : Game} (wf : g.WF) (a b : Int)
    (ha : 0 ≤ a) (hb : b ≤ g.m_height) :
    ∃ g1, g.calculate_next_state a b = some g1 ∧
      g.Updated g1 (fun _ y => a ≤ y ∧ y < b) g.compute_cell :=
  nested_loop_updated g wf (fun x y t => t.set_alive_at x y) g.compute_cell
    (fun _ _ _ _ hx0 hx hy0 hy hU hP => hU.set_alive_at wf hx0 hx hy0 hy hP) a b ha hb

/-- The commit phase on rows `[a, b)` of a well-formed grid returns, and applies
`commit_cell` to exactly the cells of these rows. -/
theorem Game.WF.update_state_updated {g : Game} (wf : g.WF) (a b : Int)
    (ha : 0 ≤ a) (hb : b ≤ g.m_height) :
    ∃ g1, g.update_state a b = some g1 ∧
      g.Updated g1 (fun _ y => a ≤ y ∧ y < b) commit_cell :=
  nested_loop_updated g wf (fun x y t => t.commit_at x y) commit_cell
    (fun _ _ _ _ hx0 hx hy0 hy hU hP => hU.commit_at wf hx0 hx hy0 hy hP) a b ha hb

/-! ## From cells `(x, y)` to positions of the cell array -/

theorem Game.cell_at_eq_getElem? (g : Game) {x y : Int} {i : Nat}
    (h : y * g.m_width + x = (i : Int)) : g.cell_at x y = g.m_obj[i]? := by
  simp [Game.cell_at, Game.cell?, h]

/-- Every position of the cell array of a well-formed grid is the index of an
in-range cell. -/
theorem Game.WF.index_decomp {g : Game} (wf : g.WF) {i : Nat} (hi : i < g.m_obj.length) :
    ∃ x y : Int, 0 ≤ x ∧ x < g.m_width ∧ 0 ≤ y ∧ y < g.m_height ∧
      y * g.m_width + x = (i : Int) := by
  have hw := wf.width_pos
  refine ⟨(i : Int) % g.m_width, (i : Int) / g.m_width,
    Int.emod_nonneg _ (by omega), Int.emod_lt_of_pos _ hw,
    Int.ediv_nonneg (by omega) hw.le, ?_, ?_⟩
  · have hlt : (i : Int) < g.m_height * g.m_width := by
      have := wf.size_eq
      rw [mul_comm]
      omega
    exact Int.ediv_lt_of_lt_mul hw hlt
  · rw [mul_comm]
    exact Int.ediv_add_emod _ _

/-- Two grids of the shape of a well-formed grid with the same in-range cells
are equal. -/
theorem Game.WF.ext_cells {g g1 g2 : Game} (wf : g.WF) (h1 : g.SameShape g1)
    (h2 : g.SameShape g2)
    (hc : ∀ x y, 0 ≤ x → x < g.m_width → 0 ≤ y → y < g.m_height →
      g1.cell_at x y = g2.cell_at x y) : g1 = g2 := by
  obtain ⟨hh1, hw1, ht1, hl1⟩ := h1
  obtain ⟨hh2, hw2, ht2, hl2⟩ := h2
  have hobj : g1.m_obj = g2.m_obj := by
    apply List.ext_getElem?
    intro i
    by_cases hi : i < g.m_obj.length
    · obtain ⟨x, y, hx0, hx, hy0, hy, hxy⟩ := wf.index_decomp hi
      have e1 := g1.cell_at_eq_getElem? (x := x) (y := y) (i := i) (by rw [hw1]; exact hxy)
      have e2 := g2.cell_at_eq_getElem? (x := x) (y := y) (i := i) (by rw [hw2]; exact hxy)
      rw [← e1, ← e2]
      exact hc x y hx0 hx hy0 hy
    · rw [List.getElem?_eq_none (by omega), List.getElem?_eq_none (by omega)]
  cases g1
  cases g2
  simp only [Game.mk.injEq]
  simp only at hh1 hw1 ht1 hh2 hw2 ht2 hobj
  exact ⟨hh1.trans hh2.symm, hw1.trans hw2.symm, hobj, ht1.trans ht2.symm⟩

/-- A transformer that keeps a field `p` of every cell keeps the list of the
`p` fields of the cell array. -/
theorem Game.Updated.map_eq {g g1 : Game} (wf : g.WF) {P : Int → Int → Prop}
    {f : Int → Int → Lifeform → Lifeform} (h : g.Updated g1 P f) (p : Lifeform → Bool)
    (hf : ∀ x y o, p (f x y o) = p o) : g1.m_obj.map p = g.m_obj.map p := by
  apply List.ext_getElem?
  intro i
  rw [List.getElem?_map, List.getElem?_map]
  by_cases hi : i < g.m_obj.length
  · obtain ⟨x, y, hx0, hx, hy0, hy, hxy⟩ := wf.index_decomp hi
    have e1 := g1.cell_at_eq_getElem? (x := x) (y := y) (i := i) (by rw [h.1.2.1]; exact hxy)
    have e0 := g.cell_at_eq_getElem? (x := x) (y := y) (i := i) hxy
    rw [← e1, ← e0]
    obtain ⟨o, ho⟩ := wf.cell_at_some hx0 hx hy0 hy
    have h2 := h.2 x y o hx0 hx hy0 hy ho
    by_cases hp : P x y
    · rw [h2.1 hp, ho]; simp [hf]
    · rw [h2.2 hp, ho]
  · rw [List.getElem?_eq_none (by have := h.1.2.2.2; omega), List.getElem?_eq_none (by omega)]

/-! ## Toroidal wrap of `alive_at` -/

/-- C5: on a grid with positive dimensions and `m_width * m_height` cells, for
`-1 ≤ x ≤ m_width` and `-1 ≤ y ≤ m_height` the index used by `alive_at(x, y)` lies
inside the cell array and the call returns the `current` value of the cell at
`(x mod m_width, y mod m_height)`; `alive_at(-1, y) = alive_at(m_width - 1, y)`,
`alive_at(m_width, y) = alive_at(0, y)`, and likewise along the y axis. -/
theorem alive_at_torus_wrap (g : Game) (hw : 0 < g.m_width) (hh : 0 < g.m_height)
    (hlen : (g.m_obj.length : Int) = g.m_width * g.m_height) (x y : Int)
    (hx0 : -1 ≤ x) (hx : x ≤ g.m_width) (hy0 : -1 ≤ y) (hy : y ≤ g.m_height) :
    (0 ≤ (y % g.m_height) * g.m_width + x % g.m_width ∧
      (y % g.m_height) * g.m_width + x % g.m_width < (g.m_obj.length : Int)) ∧
    (∃ o, g.cell_at (x % g.m_width) (y % g.m_height) = some o ∧
      g.alive_at x y = some o.current) ∧
    g.alive_at (-1) y = g.alive_at (g.m_width - 1) y ∧
    g.alive_at g.m_width y = g.alive_at 0 y ∧
    g.alive_at x (-1) = g.alive_at x (g.m_height - 1) ∧
    g.alive_at x g.m_height = g.alive_at x 0 := by
  have wf : g.WF := ⟨hw, hh, hlen⟩
  have hxm0 := Int.emod_nonneg x (show g.m_width ≠ 0 by omega)
  have hxm1 := Int.emod_lt_of_pos x hw
  have hym0 := Int.emod_nonneg y (show g.m_height ≠ 0 by omega)
  have hym1 := Int.emod_lt_of_pos y hh
  refine ⟨⟨idx_nonneg hw hxm0 hym0, ?_⟩, ?_, ?_, ?_, ?_, ?_⟩
  · rw [hlen]
    exact idx_lt hxm1 hym1 hw
  · obtain ⟨o, ho⟩ := wf.cell_at_some hxm0 hxm1 hym0 hym1
    refine ⟨o, ho, ?_⟩
    rw [g.alive_at_eq_cell_at hw hh hx0 hx hy0 hy, ho]
    rfl
  · have e1 : ¬ g.m_width - 1 = -1 := by omega
    have e2 : ¬ g.m_width - 1 = g.m_width := by omega
    simp [Game.alive_at, e1, e2]
  · have e1 : ¬ g.m_width = -1 := by omega
    have e2 : ¬ (0 : Int) = g.m_width := by omega
    simp [Game.alive_at, e1, e2]
  · have e1 : ¬ g.m_height - 1 = -1 := by omega
    have e2 : ¬ g.m_height - 1 = g.m_height := by omega
    simp [Game.alive_at, e1, e2]
  · have e1 : ¬ g.m_height = -1 := by omega
    have e2 : ¬ (0 : Int) = g.m_height := by omega
    simp [Game.alive_at, e1, e2]

/-- Witness of C5 on the 3x3 test grid at the corner `(-1, 3)`. -/
theorem alive_at_torus_wrap_witness :
    (0 ≤ ((3 : Int) % blinker_grid.m_height) * blinker_grid.m_width
        + (-1) % blinker_grid.m_width ∧
      ((3 : Int) % blinker_grid.m_height) * blinker_grid.m_width
        + (-1) % blinker_grid.m_width < (blinker_grid.m_obj.length : Int)) ∧
    (∃ o, blinker_grid.cell_at ((-1) % blinker_grid.m_width) (3 % blinker_grid.m_height)
        = some o ∧ blinker_grid.alive_at (-1) 3 = some o.current) ∧
    blinker_grid.alive_at (-1) 3 = blinker_grid.alive_at (blinker_grid.m_width - 1) 3 ∧
    blinker_grid.alive_at blinker_grid.m_width 3 = blinker_grid.alive_at 0 3 ∧
    blinker_grid.alive_at (-1) (-1) = blinker_grid.alive_at (-1) (blinker_grid.m_height - 1) ∧
    blinker_grid.alive_at (-1) blinker_grid.m_height = blinker_grid.alive_at (-1) 0 :=
  alive_at_torus_wrap blinker_grid (by decide) (by decide) (by decide) (-1) 3
    (by decide) (by decide) (by decide) (by decide)

/-! ## Frame properties of the two phases -/

/-- C9: on a well-formed grid and for `0 ≤ y_start ≤ y_end ≤ m_height`,
`calculate_next_state(y_start, y_end)` returns, leaves the `current` field of
every cell unchanged, and leaves the `next` field of every cell outside the rows
`[y_start, y_end)` unchanged (such a cell is unchanged as a whole). -/
theorem calculate_next_state_frame (g : Game) (wf : g.WF) (y_start y_end : Int)
    (h0 : 0 ≤ y_start) (_h1 : y_start ≤ y_end) (h2 : y_end ≤ g.m_height) :
    ∃ g1, g.calculate_next_state y_start y_end = some g1 ∧
      g1.m_height = g.m_height ∧ g1.m_width = g.m_width ∧
      g1.m_obj.length = g.m_obj.length ∧
      g1.m_obj.map Lifeform.current = g.m_obj.map Lifeform.current ∧
      (∀ x y, 0 ≤ x → x < g.m_width → 0 ≤ y → y < g.m_height →
        ∃ o o1, g.cell_at x y = some o ∧ g1.cell_at x y = some o1 ∧
          o1.current = o.current ∧
          (¬ (y_start ≤ y ∧ y < y_end) → o1.next = o.next ∧ o1 = o)) := by
  obtain ⟨g1, hrun, hU⟩ := wf.calculate_next_state_updated y_start y_end h0 h2
  refine ⟨g1, hrun, hU.1.1, hU.1.2.1, hU.1.2.2.2,
    hU.map_eq wf Lifeform.current g.compute_cell_current, ?_⟩
  intro x y hx0 hx hy0 hy
  obtain ⟨o, ho⟩ := wf.cell_at_some hx0 hx hy0 hy
  have hc := hU.2 x y o hx0 hx hy0 hy ho
  by_cases hp : y_start ≤ y ∧ y < y_end
  · exact ⟨o, _, ho, hc.1 hp, g.compute_cell_current x y o, fun hn => (hn hp).elim⟩
  · exact ⟨o, o, ho, hc.2 hp, rfl, fun _ => ⟨rfl, rfl⟩⟩

/-- Witness of C9: the middle row of the 3x3 test grid. -/
theorem calculate_next_state_frame_witness :
    ∃ g1, blinker_grid.calculate_next_state 1 2 = some g1 ∧
      g1.m_height = blinker_grid.m_height ∧ g1.m_width = blinker_grid.m_width ∧
      g1.m_obj.length = blinker_grid.m_obj.length ∧
      g1.m_obj.map Lifeform.current = blinker_grid.m_obj.map Lifeform.current ∧
      (∀ x y, 0 ≤ x → x < blinker_grid.m_width → 0 ≤ y → y < blinker_grid.m_height →
        ∃ o o1, blinker_grid.cell_at x y = some o ∧ g1.cell_at x y = some o1 ∧
          o1.current = o.current ∧
          (¬ ((1 : Int) ≤ y ∧ y < 2) → o1.next = o.next ∧ o1 = o)) :=
  calculate_next_state_frame blinker_grid ⟨by decide, by decide, by decide⟩ 1 2
    (by decide) (by decide) (by decide)

/-- C10: on a well-formed grid and for `0 ≤ y_start ≤ y_end ≤ m_height`,
`update_state(y_start, y_end)` returns; afterwards every cell in the rows
`[y_start, y_end)` has `current` equal to its `next` from before the call, the
`next` field of every cell is unchanged, and every cell outside these rows is
unchanged. -/
theorem update_state_frame (g : Game) (wf : g.WF) (y_start y_end : Int)
    (h0 : 0 ≤ y_start) (_h1 : y_start ≤ y_end) (h2 : y_end ≤ g.m_height) :
    ∃ g1, g.update_state y_start y_end = some g1 ∧
      g1.m_height = g.m_height ∧ g1.m_width = g.m_width ∧
      g1.m_obj.length = g.m_obj.length ∧
      g1.m_obj.map Lifeform.next = g.m_obj.map Lifeform.next ∧
      (∀ x y, 0 ≤ x → x < g.m_width → 0 ≤ y → y < g.m_height →
        ∃ o o1, g.cell_at x y = some o ∧ g1.cell_at x y = some o1 ∧
          o1.next = o.next ∧
          ((y_start ≤ y ∧ y < y_end) → o1.current = o.next) ∧
          (¬ (y_start ≤ y ∧ y < y_end) → o1 = o)) := by
  obtain ⟨g1, hrun, hU⟩ := wf.update_state_updated y_start y_end h0 h2
  refine ⟨g1, hrun, hU.1.1, hU.1.2.1, hU.1.2.2.2,
    hU.map_eq wf Lifeform.next (fun _ _ _ => rfl), ?_⟩
  intro x y hx0 hx hy0 hy
  obtain ⟨o, ho⟩ := wf.cell_at_some hx0 hx hy0 hy
  have hc := hU.2 x y o hx0 hx hy0 hy ho
  by_cases hp : y_start ≤ y ∧ y < y_end
  · exact ⟨o, _, ho, hc.1 hp, rfl, fun _ => rfl, fun hn => (hn hp).elim⟩
  · exact ⟨o, o, ho, hc.2 hp, rfl, fun h => (hp h).elim, fun _ => rfl⟩

/-- Witness of C10: the middle row of the 3x3 test grid. -/
theorem update_state_frame_witness :
    ∃ g1, blinker_grid.update_state 1 2 = some g1 ∧
      g1.m_height = blinker_grid.m_height ∧ g1.m_width = blinker_grid.m_width ∧
      g1.m_obj.length = blinker_grid.m_obj.length ∧
      g1.m_obj.map Lifeform.next = blinker_grid.m_obj.map Lifeform.next ∧
      (∀ x y, 0 ≤ x → x < blinker_grid.m_width → 0 ≤ y → y < blinker_grid.m_height →
        ∃ o o1, blinker_grid.cell_at x y = some o ∧ g1.cell_at x y = some o1 ∧
          o1.next = o.next ∧
          (((1 : Int) ≤ y ∧ y < 2) → o1.current = o.next) ∧
          (¬ ((1 : Int) ≤ y ∧ y < 2) → o1 = o)) :=
  update_state_frame blinker_grid ⟨by decide, by decide, by decide⟩ 1 2
    (by decide) (by decide) (by decide)

/-! ## The partition of the rows among the workers -/

/-- For a divisor different from zero the partitioning loop is the loop over
the truncated quotient and remainder. -/
theorem thread_ranges_of_ne_zero {THREADS height : Int} (hT : THREADS ≠ 0) :
    thread_ranges THREADS height =
      forLoop
        (fun i thr =>
          if i = THREADS - 1 then
            if i * Int.tdiv height THREADS + Int.tdiv height THREADS
                + Int.tmod height THREADS = height then
              some (thr ++ [(i * Int.tdiv height THREADS,
                i * Int.tdiv height THREADS + Int.tdiv height THREADS
                  + Int.tmod height THREADS)])
            else none
          else some (thr ++ [(i * Int.tdiv height THREADS,
            i * Int.tdiv height THREADS + Int.tdiv height THREADS)]))
        (THREADS - 0).toNat 0 [] := by
  simp [thread_ranges, int_div, int_mod, hT]

/-- The partitioning loop returns for every `THREADS ≥ 1`: worker `k` gets the
range `worker_range THREADS height k`, and the `assert` holds. -/
theorem thread_ranges_closed (THREADS height : Int) (hT : 1 ≤ THREADS) :
    ∃ rs, thread_ranges THREADS height = some rs ∧ rs.length = THREADS.toNat ∧
      ∀ k : Nat, (k : Int) < THREADS → rs[k]? = some (worker_range THREADS height k) := by
  rw [thread_ranges_of_ne_zero (show THREADS ≠ 0 by omega)]
  obtain ⟨rs, hrun, hlen, hpt⟩ := forLoop_inv
    (fun i thr =>
      if i = THREADS - 1 then
        if i * Int.tdiv height THREADS + Int.tdiv height THREADS
            + Int.tmod height THREADS = height then
          some (thr ++ [(i * Int.tdiv height THREADS,
            i * Int.tdiv height THREADS + Int.tdiv height THREADS
              + Int.tmod height THREADS)])
        else none
      else some (thr ++ [(i * Int.tdiv height THREADS,
        i * Int.tdiv height THREADS + Int.tdiv height THREADS)]))
    (fun i (thr : List (Int × Int)) => (thr.length : Int) = i ∧
      ∀ k : Nat, (k : Int) < i → thr[k]? = some (worker_range THREADS height k))
    (THREADS - 0).toNat 0 []
    ⟨by simp, fun k hk => by omega⟩
    (by
      intro i thr hi0 hi1 hI
      obtain ⟨hl, hp⟩ := hI
      have hlen : thr.length = i.toNat := by omega
      have key : ∀ e : Int, (i = THREADS - 1 → e = height) →
          (¬ i = THREADS - 1 →
            e = i * Int.tdiv height THREADS + Int.tdiv height THREADS) →
          ((((thr ++ [(i * Int.tdiv height THREADS, e)]).length : Int) = i + 1) ∧
            ∀ k : Nat, (k : Int) < i + 1 →
              (thr ++ [(i * Int.tdiv height THREADS, e)])[k]?
                = some (worker_range THREADS height k)) := by
        intro e he1 he2
        refine ⟨by simp [hl], fun k hk => ?_⟩
        by_cases hki : (k : Int) < i
        · rw [List.getElem?_append_left (by omega)]
          exact hp k hki
        · have hk' : k = thr.length := by omega
          have hik : i = (k : Int) := by omega
          subst hk'
          rw [List.getElem?_append_right le_rfl]
          simp only [Nat.sub_self, List.getElem?_cons_zero, worker_range, Option.some.injEq]
          rw [← hik]
          by_cases hlast : i = THREADS - 1
          · rw [if_pos hlast, he1 hlast]
          · rw [if_neg hlast, he2 hlast]
      by_cases hlast : i = THREADS - 1
      · have hsum : i * Int.tdiv height THREADS + Int.tdiv height THREADS
            + Int.tmod height THREADS = height := by
          have h1 := Int.tdiv_add_tmod' height THREADS
          have h2 : i * Int.tdiv height THREADS + Int.tdiv height THREADS
              = Int.tdiv height THREADS * THREADS := by
            rw [hlast]; ring
          rw [h2]
          exact h1
        beta_reduce
        rw [if_pos hlast, if_pos hsum]
        exact ⟨_, rfl, key _ (fun _ => hsum) (fun h => (h hlast).elim)⟩
      · beta_reduce
        rw [if_neg hlast]
        exact ⟨_, rfl, key _ (fun h => (hlast h).elim) (fun _ => rfl)⟩)
  refine ⟨rs, hrun, by omega, fun k hk => hpt k (by omega)⟩

theorem tdiv_facts {THREADS height : Int} (hT : 1 ≤ THREADS) (hh : 0 ≤ height) :
    0 ≤ Int.tdiv height THREADS ∧ THREADS * Int.tdiv height THREADS ≤ height ∧
      height < THREADS * Int.tdiv height THREADS + THREADS := by
  have h1 := Int.tdiv_add_tmod height THREADS
  have h2 := Int.tmod_nonneg THREADS hh
  have h3 := Int.tmod_lt_of_pos height (show 0 < THREADS by omega)
  exact ⟨Int.tdiv_nonneg hh (by omega), by omega, by omega⟩

theorem tdiv_pos_of_le {THREADS height : Int} (hT : 1 ≤ THREADS) (hle : THREADS ≤ height) :
    1 ≤ Int.tdiv height THREADS := by
  obtain ⟨h0, _, h2⟩ := tdiv_facts hT (show 0 ≤ height by omega)
  by_contra hc
  have hz : Int.tdiv height THREADS = 0 := by omega
  rw [hz] at h2
  omega

theorem worker_range_fst_nonneg {THREADS height k : Int} (hT : 1 ≤ THREADS)
    (hh : 0 ≤ height) (hk0 : 0 ≤ k) : 0 ≤ (worker_range THREADS height k).1 :=
  mul_nonneg hk0 (tdiv_facts hT hh).1

theorem worker_range_snd_le {THREADS height k : Int} (hT : 1 ≤ THREADS)
    (hh : 0 ≤ height) (hk : k < THREADS) : (worker_range THREADS height k).2 ≤ height := by
  obtain ⟨hq0, hTq, _⟩ := tdiv_facts hT hh
  unfold worker_range
  simp only
  split_ifs with hl
  · exact le_rfl
  · have h1 : (k + 1) * Int.tdiv height THREADS ≤ THREADS * Int.tdiv height THREADS :=
      mul_le_mul_of_nonneg_right (by omega) hq0
    have h2 : (k + 1) * Int.tdiv height THREADS
        = k * Int.tdiv height THREADS + Int.tdiv height THREADS := by ring
    omega

theorem worker_range_fst_le_snd {THREADS height k : Int} (hT : 1 ≤ THREADS)
    (hh : 0 ≤ height) :
    (worker_range THREADS height k).1 ≤ (worker_range THREADS height k).2 := by
  obtain ⟨hq0, hTq, _⟩ := tdiv_facts hT hh
  unfold worker_range
  simp only
  split_ifs with hl
  · have h1 : k * Int.tdiv height THREADS ≤ THREADS * Int.tdiv height THREADS :=
      mul_le_mul_of_nonneg_right (by omega) hq0
    omega
  · omega

theorem worker_range_fst_lt_snd {THREADS height k : Int} (hT : 1 ≤ THREADS)
    (hle : THREADS ≤ height) :
    (worker_range THREADS height k).1 < (worker_range THREADS height k).2 := by
  obtain ⟨hq0, hTq, _⟩ := tdiv_facts hT (show 0 ≤ height by omega)
  have hq1 := tdiv_pos_of_le hT hle
  unfold worker_range
  simp only
  split_ifs with hl
  · have h2 : THREADS * Int.tdiv height THREADS
        = k * Int.tdiv height THREADS + Int.tdiv height THREADS := by
      rw [hl]; ring
    omega
  · omega

theorem worker_range_contiguous {THREADS height k : Int} (hk : k + 1 < THREADS) :
    (worker_range THREADS height k).2 = (worker_range THREADS height (k + 1)).1 := by
  unfold worker_range
  simp only
  rw [if_neg (by omega)]
  ring

theorem worker_range_mono {THREADS height i j : Int} (hT : 1 ≤ THREADS)
    (hh : 0 ≤ height) (hij : i < j) (hj : j < THREADS) :
    (worker_range THREADS height i).2 ≤ (worker_range THREADS height j).1 := by
  obtain ⟨hq0, _, _⟩ := tdiv_facts hT hh
  unfold worker_range
  simp only
  rw [if_neg (by omega)]
  have h1 : (i + 1) * Int.tdiv height THREADS ≤ j * Int.tdiv height THREADS :=
    mul_le_mul_of_nonneg_right (by omega) hq0
  have h2 : (i + 1) * Int.tdiv height THREADS
      = i * Int.tdiv height THREADS + Int.tdiv height THREADS := by ring
  omega

/-- Every row of `[0, height)` lies in the range of some worker. -/
theorem worker_range_cover {THREADS height y : Int} (hT : 1 ≤ THREADS)
    (hy0 : 0 ≤ y) (hy : y < height) :
    ∃ k : Int, 0 ≤ k ∧ k < THREADS ∧ (worker_range THREADS height k).1 ≤ y ∧
      y < (worker_range THREADS height k).2 := by
  obtain ⟨hq0, hTq, _⟩ := tdiv_facts hT (show 0 ≤ height by omega)
  by_cases hlast : (THREADS - 1) * Int.tdiv height THREADS ≤ y
  · refine ⟨THREADS - 1, by omega, by omega, ?_, ?_⟩
    · exact hlast
    · have e : (worker_range THREADS height (THREADS - 1)).2 = height := by
        simp [worker_range]
      rw [e]
      exact hy
  · have hlt : y < (THREADS - 1) * Int.tdiv height THREADS := by omega
    have hqpos : 0 < Int.tdiv height THREADS := by
      rcases hq0.lt_or_eq with h | h
      · exact h
      · rw [← h] at hlt
        simp at hlt
        omega
    have hk1 : y / Int.tdiv height THREADS < THREADS - 1 := Int.ediv_lt_of_lt_mul hqpos hlt
    refine ⟨y / Int.tdiv height THREADS, Int.ediv_nonneg hy0 hq0, by omega, ?_, ?_⟩
    · exact Int.ediv_mul_le y (by omega)
    · unfold worker_range
      simp only
      rw [if_neg (by omega)]
      have := Int.lt_ediv_add_one_mul_self y hqpos
      have h2 : (y / Int.tdiv height THREADS + 1) * Int.tdiv height THREADS
          = y / Int.tdiv height THREADS * Int.tdiv height THREADS
            + Int.tdiv height THREADS := by ring
      omega

/-- The ranges handed to the workers lie inside `[0, height]` and together
cover exactly the rows `[0, height)`. -/
theorem thread_ranges_cover {THREADS height : Int} (hT : 1 ≤ THREADS) (hh : 0 ≤ height)
    {rs : List (Int × Int)} (hrs : thread_ranges THREADS height = some rs) :
    (∀ r ∈ rs, 0 ≤ r.1 ∧ r.1 ≤ r.2 ∧ r.2 ≤ height) ∧
      ∀ y, in_ranges rs y ↔ (0 ≤ y ∧ y < height) := by
  obtain ⟨rs1, hrun, hlen, hpt⟩ := thread_ranges_closed THREADS height hT
  rw [hrs] at hrun
  obtain rfl := Option.some.inj hrun
  have hmem : ∀ r ∈ rs, ∃ k : Int, 0 ≤ k ∧ k < THREADS ∧ r = worker_range THREADS height k := by
    intro r hr
    obtain ⟨k, hk, hk2⟩ := List.getElem_of_mem hr
    have h1 := hpt k (by omega)
    rw [List.getElem?_eq_getElem hk, hk2] at h1
    exact ⟨k, by omega, by omega, Option.some.inj h1⟩
  have hbound : ∀ r ∈ rs, 0 ≤ r.1 ∧ r.1 ≤ r.2 ∧ r.2 ≤ height := by
    intro r hr
    obtain ⟨k, hk0, hk, rfl⟩ := hmem r hr
    exact ⟨worker_range_fst_nonneg hT hh hk0, worker_range_fst_le_snd hT hh,
      worker_range_snd_le hT hh hk⟩
  refine ⟨hbound, fun y => ⟨?_, ?_⟩⟩
  · rintro ⟨r, hr, h1, h2⟩
    have := hbound r hr
    omega
  · rintro ⟨hy0, hy⟩
    obtain ⟨k, hk0, hk, h1, h2⟩ := @worker_range_cover THREADS height y hT hy0 hy
    have hkn : k.toNat < rs.length := by omega
    have h3 := hpt k.toNat (by omega)
    have hcast : ((k.toNat : Nat) : Int) = k := by omega
    rw [hcast] at h3
    exact ⟨worker_range THREADS height k, List.getElem?_mem h3, h1, h2⟩

/-- C4: for `height > 0` and `1 ≤ THREADS ≤ height` the partitioning loop of the
constructor returns (its `assert` holds) one range per worker; block `k` starts
at `k * (height / THREADS)` and has `height / THREADS` rows, the last block has
`height % THREADS` rows more; the first range starts at 0, each range ends where
the next begins, the last ends at `height`, every range is a non-empty half-open
interval, two different ranges share no row, and the union of the ranges is
exactly `[0, height)`. -/
theorem thread_ranges_partition (THREADS height : Int) (hh : 0 < height)
    (hT : 1 ≤ THREADS) (hle : THREADS ≤ height) :
    ∃ rs, thread_ranges THREADS height = some rs ∧ rs.length = THREADS.toNat ∧
      (∀ k : Nat, (k : Int) < THREADS → rs[k]? = some
        ((k : Int) * Int.tdiv height THREADS,
          (k : Int) * Int.tdiv height THREADS + Int.tdiv height THREADS
            + if (k : Int) = THREADS - 1 then Int.tmod height THREADS else 0)) ∧
      (∃ r, rs.head? = some r ∧ r.1 = 0) ∧
      (∀ (k : Nat) (r r1 : Int × Int), rs[k]? = some r → rs[k + 1]? = some r1 → r.2 = r1.1) ∧
      (∃ r, rs.getLast? = some r ∧ r.2 = height) ∧
      (∀ r ∈ rs, r.1 < r.2) ∧
      (∀ (i j : Nat) (r r1 : Int × Int), i < j → rs[i]? = some r → rs[j]? = some r1 →
        ∀ y, ¬ ((r.1 ≤ y ∧ y < r.2) ∧ (r1.1 ≤ y ∧ y < r1.2))) ∧
      (∀ y, in_ranges rs y ↔ (0 ≤ y ∧ y < height)) := by
  obtain ⟨rs, hrun, hlen, hpt⟩ := thread_ranges_closed THREADS height hT
  have hget : ∀ (k : Nat) (r : Int × Int), rs[k]? = some r →
      (k : Int) < THREADS ∧ r = worker_range THREADS height k := by
    intro k r hk
    have hlt : k < rs.length := by
      by_contra hc
      rw [List.getElem?_eq_none (by omega)] at hk
      exact Option.noConfusion hk
    have h1 := hpt k (by omega)
    rw [hk] at h1
    exact ⟨by omega, Option.some.inj h1⟩
  refine ⟨rs, hrun, hlen, ?_, ?_, ?_, ?_, ?_, ?_, (thread_ranges_cover hT hh.le hrun).2⟩
  · intro k hk
    rw [hpt k hk]
    unfold worker_range
    by_cases hl : (k : Int) = THREADS - 1
    · have h1 := Int.tdiv_add_tmod' height THREADS
      have h2 : THREADS * Int.tdiv height THREADS
          = (k : Int) * Int.tdiv height THREADS + Int.tdiv height THREADS := by
        rw [hl]; ring
      have h3 : Int.tdiv height THREADS * THREADS = THREADS * Int.tdiv height THREADS :=
        mul_comm _ _
      simp only [if_pos hl, Option.some.injEq, Prod.mk.injEq, true_and]
      omega
    · simp only [if_neg hl, add_zero]
  · have h0 := hpt 0 (by simpa using (show (0 : Int) < THREADS by omega))
    refine ⟨worker_range THREADS height 0, ?_, by simp [worker_range]⟩
    rw [List.head?_eq_getElem?]
    simpa using h0
  · intro k r r1 hk hk1
    obtain ⟨_, rfl⟩ := hget k r hk
    obtain ⟨hlt, rfl⟩ := hget (k + 1) r1 hk1
    have := @worker_range_contiguous THREADS height (k : Int)
      (by push_cast at hlt; omega)
    rw [this]
    push_cast
    rfl
  · refine ⟨worker_range THREADS height (THREADS - 1), ?_, by simp [worker_range]⟩
    rw [List.getLast?_eq_getElem?]
    have h1 := hpt (rs.length - 1) (by omega)
    have hc : ((rs.length - 1 : Nat) : Int) = THREADS - 1 := by omega
    rw [hc] at h1
    exact h1
  · intro r hr
    obtain ⟨k, hk⟩ := List.mem_iff_getElem?.mp hr
    obtain ⟨_, rfl⟩ := hget k r hk
    exact worker_range_fst_lt_snd hT hle
  · intro i j r r1 hij hi hj y hy
    obtain ⟨_, rfl⟩ := hget i r hi
    obtain ⟨hjT, rfl⟩ := hget j r1 hj
    have := @worker_range_mono THREADS height (i : Int) (j : Int) hT hh.le
      (by omega) hjT
    omega

/-- Witness of C4: ten rows split among four workers. -/
theorem thread_ranges_partition_witness :
    ∃ rs, thread_ranges 4 10 = some rs ∧ rs.length = (4 : Int).toNat ∧
      (∀ k : Nat, (k : Int) < 4 → rs[k]? = some
        ((k : Int) * Int.tdiv 10 4,
          (k : Int) * Int.tdiv 10 4 + Int.tdiv 10 4
            + if (k : Int) = 4 - 1 then Int.tmod 10 4 else 0)) ∧
      (∃ r, rs.head? = some r ∧ r.1 = 0) ∧
      (∀ (k : Nat) (r r1 : Int × Int), rs[k]? = some r → rs[k + 1]? = some r1 → r.2 = r1.1) ∧
      (∃ r, rs.getLast? = some r ∧ r.2 = 10) ∧
      (∀ r ∈ rs, r.1 < r.2) ∧
      (∀ (i j : Nat) (r r1 : Int × Int), i < j → rs[i]? = some r → rs[j]? = some r1 →
        ∀ y, ¬ ((r.1 ≤ y ∧ y < r.2) ∧ (r1.1 ≤ y ∧ y < r1.2))) ∧
      (∀ y, in_ranges rs y ↔ (0 ≤ y ∧ y < 10)) :=
  thread_ranges_partition 4 10 (by decide) (by decide) (by decide)

/-! ## Phases run over a list of row ranges -/

/-- Two updates in a row by transformers that agree and are idempotent amount
to one update of the union of the selections. -/
theorem Game.Updated.comp {g g0 g1 : Game} {P Q : Int → Int → Prop}
    {f f1 : Int → Int → Lifeform → Lifeform} (h0 : g.Updated g0 P f)
    (h1 : g0.Updated g1 Q f1) (hff : ∀ x y o, f1 x y o = f x y o)
    (hidem : ∀ x y o, f x y (f x y o) = f x y o) :
    g.Updated g1 (fun x y => P x y ∨ Q x y) f := by
  refine ⟨h0.1.trans h1.1, ?_⟩
  intro x y o hx0 hx hy0 hy ho
  have hw0 : g0.m_width = g.m_width := h0.1.2.1
  have hh0 : g0.m_height = g.m_height := h0.1.1
  have a0 := h0.2 x y o hx0 hx hy0 hy ho
  by_cases hp : P x y
  · have b := h1.2 x y (f x y o) hx0 (by omega) hy0 (by omega) (a0.1 hp)
    constructor
    · intro _
      by_cases hq : Q x y
      · rw [b.1 hq, hff, hidem]
      · exact b.2 hq
    · intro hn
      exact (hn (Or.inl hp)).elim
  · have b := h1.2 x y o hx0 (by omega) hy0 (by omega) (a0.2 hp)
    constructor
    · intro hpq
      rcases hpq with h | hq
      · exact (hp h).elim
      · rw [b.1 hq, hff]
    · intro hn
      exact b.2 (fun hq => hn (Or.inr hq))

theorem in_ranges_cons (r : Int × Int) (rs : List (Int × Int)) (y : Int) :
    in_ranges (r :: rs) y ↔ ((r.1 ≤ y ∧ y < r.2) ∨ in_ranges rs y) := by
  simp [in_ranges]

theorem in_ranges_perm {rs rs1 : List (Int × Int)} (hp : rs1.Perm rs) (y : Int) :
    in_ranges rs1 y ↔ in_ranges rs y := by
  unfold in_ranges
  constructor
  · rintro ⟨r, hr, h⟩
    exact ⟨r, hp.mem_iff.mp hr, h⟩
  · rintro ⟨r, hr, h⟩
    exact ⟨r, hp.mem_iff.mpr hr, h⟩

/-- A phase run for the ranges of `rs` one after the other, in the order of
the list, applies the transformer of the phase to exactly the rows of `rs`. -/
theorem run_phase_updated (ph : Game → Int → Int → Option Game)
    (F : Game → Int → Int → Lifeform → Lifeform)
    (hph : ∀ g0 : Game, g0.WF → ∀ a b, 0 ≤ a → b ≤ g0.m_height →
      ∃ g1, ph g0 a b = some g1 ∧ g0.Updated g1 (fun _ y => a ≤ y ∧ y < b) (F g0))
    (hF : ∀ (g g0 : Game) (P : Int → Int → Prop), g.WF → g.Updated g0 P (F g) →
      ∀ x y o, F g0 x y o = F g x y o)
    (hidem : ∀ g x y o, F g x y (F g x y o) = F g x y o)
    (g : Game) (wf : g.WF) :
    ∀ (rs : List (Int × Int)) (g0 : Game) (P : Int → Int → Prop),
      (∀ r ∈ rs, 0 ≤ r.1 ∧ r.2 ≤ g.m_height) → g.Updated g0 P (F g) →
      ∃ g1, Game.run_phase ph rs g0 = some g1 ∧
        g.Updated g1 (fun x y => P x y ∨ in_ranges rs y) (F g) := by
  intro rs
  induction rs with
  | nil =>
    intro g0 P _ h0
    exact ⟨g0, rfl, h0.congr (fun x y _ _ _ _ => by simp [in_ranges])⟩
  | cons r rs ih =>
    intro g0 P hr h0
    have wf0 : g0.WF := h0.1.wf wf
    have hb := hr r (List.mem_cons_self _ _)
    obtain ⟨g1, hrun1, hU1⟩ := hph g0 wf0 r.1 r.2 hb.1 (by rw [h0.1.1]; exact hb.2)
    have hU := h0.comp hU1 (hF g g0 P wf h0) (hidem g)
    obtain ⟨g2, hrun2, hU2⟩ := ih g1 _ (fun r1 hr1 => hr r1 (List.mem_cons_of_mem _ hr1)) hU
    refine ⟨g2, by simp [Game.run_phase, hrun1, hrun2], hU2.congr (fun x y _ _ _ _ => ?_)⟩
    rw [in_ranges_cons]
    tauto

theorem Lifeform.decide_next_idem (o : Lifeform) (num : Int) :
    (o.decide_next num).decide_next num = o.decide_next num := by
  unfold Lifeform.decide_next
  split_ifs <;> simp_all

/-- A transformer that keeps `current` keeps the torus reads. -/
theorem Game.Updated.alive_on_torus_eq {g g1 : Game} (wf : g.WF) {P : Int → Int → Prop}
    {f : Int → Int → Lifeform → Lifeform} (h : g.Updated g1 P f)
    (hf : ∀ x y o, (f x y o).current = o.current) (x y : Int) :
    g1.alive_on_torus x y = g.alive_on_torus x y := by
  have hw1 : g1.m_width = g.m_width := h.1.2.1
  have hh1 : g1.m_height = g.m_height := h.1.1
  have hc := h.current_eq wf hf
    (Int.emod_nonneg x (by have := wf.width_pos; omega))
    (Int.emod_lt_of_pos x wf.width_pos)
    (Int.emod_nonneg y (by have := wf.height_pos; omega))
    (Int.emod_lt_of_pos y wf.height_pos)
  unfold Game.alive_on_torus
  rw [hw1, hh1]
  cases h1 : g1.cell_at (x % g.m_width) (y % g.m_height) <;>
    cases h2 : g.cell_at (x % g.m_width) (y % g.m_height) <;>
    simp_all

theorem Game.Updated.compute_cell_eq {g g1 : Game} (wf : g.WF) {P : Int → Int → Prop}
    (h : g.Updated g1 P g.compute_cell) (x y : Int) (o : Lifeform) :
    g1.compute_cell x y o = g.compute_cell x y o := by
  unfold Game.compute_cell Game.torus_neighbours
  simp only [h.alive_on_torus_eq wf g.compute_cell_current]

/-- The compute phase run for the ranges of `rs` in list order. -/
theorem Game.WF.run_calculate {g : Game} (wf : g.WF) (rs : List (Int × Int))
    (hrs : ∀ r ∈ rs, 0 ≤ r.1 ∧ r.2 ≤ g.m_height) :
    ∃ g1, Game.run_phase Game.calculate_next_state rs g = some g1 ∧
      g.Updated g1 (fun _ y => in_ranges rs y) g.compute_cell := by
  obtain ⟨g1, hrun, hU⟩ := run_phase_updated Game.calculate_next_state Game.compute_cell
    (fun g0 wf0 a b ha hb => wf0.calculate_next_state_updated a b ha hb)
    (fun g g0 P wfg hU x y o => hU.compute_cell_eq wfg x y o)
    (fun g x y o => Lifeform.decide_next_idem o _)
    g wf rs g (fun _ _ => False) hrs (Game.Updated.nothing g _)
  exact ⟨g1, hrun, hU.congr (fun x y _ _ _ _ => by simp)⟩

/-- The commit phase run for the ranges of `rs` in list order. -/
theorem Game.WF.run_update {g : Game} (wf : g.WF) (rs : List (Int × Int))
    (hrs : ∀ r ∈ rs, 0 ≤ r.1 ∧ r.2 ≤ g.m_height) :
    ∃ g1, Game.run_phase Game.update_state rs g = some g1 ∧
      g.Updated g1 (fun _ y => in_ranges rs y) commit_cell := by
  obtain ⟨g1, hrun, hU⟩ := run_phase_updated Game.update_state (fun _ => commit_cell)
    (fun g0 wf0 a b ha hb => wf0.update_state_updated a b ha hb)
    (fun g g0 P wfg hU x y o => rfl)
    (fun g x y o => rfl)
    g wf rs g (fun _ _ => False) hrs (Game.Updated.nothing g _)
  exact ⟨g1, hrun, hU.congr (fun x y _ _ _ _ => by simp)⟩

/-! ## One full generation -/

/-- The compute phase over ranges covering all rows followed by the commit
phase over ranges covering all rows applies `generation_cell` to every cell. -/
theorem Game.WF.two_phases {g : Game} (wf : g.WF) (rs1 rs2 : List (Int × Int))
    (hb1 : ∀ r ∈ rs1, 0 ≤ r.1 ∧ r.2 ≤ g.m_height)
    (hb2 : ∀ r ∈ rs2, 0 ≤ r.1 ∧ r.2 ≤ g.m_height)
    (hc1 : ∀ y, 0 ≤ y → y < g.m_height → in_ranges rs1 y)
    (hc2 : ∀ y, 0 ≤ y → y < g.m_height → in_ranges rs2 y) :
    ∃ g1 g2, Game.run_phase Game.calculate_next_state rs1 g = some g1 ∧
      Game.run_phase Game.update_state rs2 g1 = some g2 ∧
      g.Updated g2 (fun _ _ => True) g.generation_cell := by
  obtain ⟨g1, hrun1, hU1⟩ := wf.run_calculate rs1 hb1
  have wf1 : g1.WF := hU1.1.wf wf
  have hh1 : g1.m_height = g.m_height := hU1.1.1
  have hw1 : g1.m_width = g.m_width := hU1.1.2.1
  obtain ⟨g2, hrun2, hU2⟩ := wf1.run_update rs2 (by rw [hh1]; exact hb2)
  refine ⟨g1, g2, hrun1, hrun2, hU1.1.trans hU2.1, ?_⟩
  intro x y o hx0 hx hy0 hy ho
  have a := (hU1.2 x y o hx0 hx hy0 hy ho).1 (hc1 y hy0 hy)
  have b := (hU2.2 x y _ hx0 (by omega) hy0 (by omega) a).1 (hc2 y hy0 hy)
  exact ⟨fun _ => b, fun hn => (hn trivial).elim⟩

/-- Two grids obtained from a well-formed grid by the same transformer applied
to the same cells are equal. -/
theorem Game.Updated.unique {g g1 g2 : Game} (wf : g.WF) {P : Int → Int → Prop}
    {f : Int → Int → Lifeform → Lifeform} (h1 : g.Updated g1 P f)
    (h2 : g.Updated g2 P f) : g1 = g2 := by
  apply wf.ext_cells h1.1 h2.1
  intro x y hx0 hx hy0 hy
  obtain ⟨o, ho⟩ := wf.cell_at_some hx0 hx hy0 hy
  have a := h1.2 x y o hx0 hx hy0 hy ho
  have b := h2.2 x y o hx0 hx hy0 hy ho
  by_cases hp : P x y
  · rw [a.1 hp, b.1 hp]
  · rw [a.2 hp, b.2 hp]

/-- One generation of a well-formed, partitioned grid returns and applies
`generation_cell` to every cell. -/
theorem Game.WF.generation_updated {g : Game} (wf : g.WF) (hp : g.Partitioned) :
    ∃ g2, g.generation = some g2 ∧ g.Updated g2 (fun _ _ => True) g.generation_cell := by
  obtain ⟨g1, g2, hrun1, hrun2, hU⟩ := wf.two_phases g.m_threads g.m_threads hp.1 hp.1
    (fun y hy0 hy => (hp.2 y).mpr ⟨hy0, hy⟩) (fun y hy0 hy => (hp.2 y).mpr ⟨hy0, hy⟩)
  have ht : g1.m_threads = g.m_threads := by
    obtain ⟨g1', hrun1', hU1'⟩ := wf.run_calculate g.m_threads hp.1
    rw [hrun1] at hrun1'
    obtain rfl := Option.some.inj hrun1'
    exact hU1'.1.2.2.1
  refine ⟨g2, ?_, hU⟩
  unfold Game.generation
  rw [hrun1]
  simp only [Option.some_bind, ht]
  exact hrun2

theorem Game.Updated.partitioned {g g1 : Game} {P : Int → Int → Prop}
    {f : Int → Int → Lifeform → Lifeform} (h : g.Updated g1 P f) (hp : g.Partitioned) :
    g1.Partitioned := by
  unfold Game.Partitioned
  rw [h.1.2.2.1, h.1.1]
  exact hp

/-! ## Independence of the partition and of the processing order -/

/-- C6: for a well-formed grid, a worker count `THREADS ≥ 1` with its row
ranges, and any two orders `rs1`, `rs2` in which the ranges are processed in
the compute phase and in the commit phase, both the partitioned run and the
single-threaded reference `calculate_next_state(0, height)` followed by
`update_state(0, height)` return, and they return the same grid. -/
theorem generation_order_independent (g : Game) (wf : g.WF) (THREADS : Int)
    (hT : 1 ≤ THREADS) (rs rs1 rs2 : List (Int × Int))
    (hrs : thread_ranges THREADS g.m_height = some rs)
    (hp1 : rs1.Perm rs) (hp2 : rs2.Perm rs) :
    ∃ g2, (Game.run_phase Game.calculate_next_state rs1 g).bind
          (Game.run_phase Game.update_state rs2) = some g2 ∧
      (g.calculate_next_state 0 g.m_height).bind
          (fun g1 => g1.update_state 0 g1.m_height) = some g2 := by
  obtain ⟨hb, hc⟩ := thread_ranges_cover hT wf.height_pos.le hrs
  obtain ⟨g1, g2, hrun1, hrun2, hU⟩ := wf.two_phases rs1 rs2
    (fun r hr => ⟨(hb r (hp1.mem_iff.mp hr)).1, (hb r (hp1.mem_iff.mp hr)).2.2⟩)
    (fun r hr => ⟨(hb r (hp2.mem_iff.mp hr)).1, (hb r (hp2.mem_iff.mp hr)).2.2⟩)
    (fun y hy0 hy => (in_ranges_perm hp1 y).mpr ((hc y).mpr ⟨hy0, hy⟩))
    (fun y hy0 hy => (in_ranges_perm hp2 y).mpr ((hc y).mpr ⟨hy0, hy⟩))
  have hone : ∀ y, 0 ≤ y → y < g.m_height → in_ranges [((0 : Int), g.m_height)] y :=
    fun y hy0 hy => ⟨(0, g.m_height), List.mem_singleton.mpr rfl, hy0, hy⟩
  have hbone : ∀ r ∈ [((0 : Int), g.m_height)], 0 ≤ r.1 ∧ r.2 ≤ g.m_height := by
    intro r hr
    rw [List.mem_singleton.mp hr]
    exact ⟨le_rfl, le_rfl⟩
  obtain ⟨k1, k2, hk1, hk2, hV⟩ := wf.two_phases _ _ hbone hbone hone hone
  have hk1' : g.calculate_next_state 0 g.m_height = some k1 := by
    simpa [Game.run_phase] using hk1
  have hkh : k1.m_height = g.m_height := by
    obtain ⟨k1', hr', hU'⟩ := wf.calculate_next_state_updated 0 g.m_height le_rfl le_rfl
    rw [hk1'] at hr'
    obtain rfl := Option.some.inj hr'
    exact hU'.1.1
  have hk2' : k1.update_state 0 g.m_height = some k2 := by
    simpa [Game.run_phase] using hk2
  refine ⟨g2, by rw [hrun1]; exact hrun2, ?_⟩
  rw [hk1']
  simp only [Option.some_bind, hkh]
  rw [hk2', hV.unique wf hU]

/-- Witness of C6: the 3x3 test grid with three workers, the compute phase run
in the order 2, 0, 1 and the commit phase in the order 1, 2, 0. -/
theorem generation_order_independent_witness :
    ∃ g2, (Game.run_phase Game.calculate_next_state [(2, 3), (0, 1), (1, 2)]
          blinker_grid).bind
          (Game.run_phase Game.update_state [(1, 2), (2, 3), (0, 1)]) = some g2 ∧
      (blinker_grid.calculate_next_state 0 blinker_grid.m_height).bind
          (fun g1 => g1.update_state 0 g1.m_height) = some g2 :=
  generation_order_independent blinker_grid ⟨by decide, by decide, by decide⟩ 3
    (by decide) [(0, 1), (1, 2), (2, 3)] [(2, 3), (0, 1), (1, 2)]
    [(1, 2), (2, 3), (0, 1)] (by decide)
    (by decide) (by decide)

/-! ## Construction -/

/-- The seeding loops return; cell number `i` is `Lifeform(flip_i)`, and there
are `height * width` cells (none when a dimension is not positive). -/
theorem seed_cells_closed (flip : Nat → Bool) (height width : Int) :
    ∃ objs, seed_cells flip height width = some objs ∧
      (objs.length : Int) = (height.toNat : Int) * (width.toNat : Int) ∧
      ∀ i, i < objs.length → objs[i]? = some (Lifeform.new (flip i)) := by
  unfold seed_cells
  obtain ⟨objs, hrun, hlen, hpt⟩ := forLoop_inv
    (fun (_ : Int) (objs : List Lifeform) => forLoop
      (fun (_ : Int) (objs1 : List Lifeform) =>
        some (objs1 ++ [Lifeform.new (flip objs1.length)]))
      (width - 0).toNat 0 objs)
    (fun y (objs : List Lifeform) => (objs.length : Int) = y * (width.toNat : Int) ∧
      ∀ i, i < objs.length → objs[i]? = some (Lifeform.new (flip i)))
    (height - 0).toNat 0 []
    ⟨by simp, fun i hi => by simp at hi⟩
    (by
      intro y objs _ _ hI
      obtain ⟨objs1, hrun1, hlen1, hpt1⟩ := forLoop_inv
        (fun (_ : Int) (objs1 : List Lifeform) =>
          some (objs1 ++ [Lifeform.new (flip objs1.length)]))
        (fun x (objs1 : List Lifeform) =>
          (objs1.length : Int) = y * (width.toNat : Int) + x ∧
          ∀ i, i < objs1.length → objs1[i]? = some (Lifeform.new (flip i)))
        (width - 0).toNat 0 objs
        ⟨by rw [hI.1]; ring, hI.2⟩
        (by
          intro x objs1 _ _ hI1
          refine ⟨_, rfl, ?_, ?_⟩
          · rw [List.length_append, List.length_singleton]
            push_cast
            rw [hI1.1]
            ring
          · intro i hi
            rw [List.length_append, List.length_singleton] at hi
            by_cases hlt : i < objs1.length
            · rw [List.getElem?_append_left hlt]
              exact hI1.2 i hlt
            · have hie : i = objs1.length := by omega
              subst hie
              rw [List.getElem?_append_right le_rfl]
              simp)
      refine ⟨objs1, hrun1, ?_, hpt1⟩
      rw [hlen1]
      have e : ((width - 0).toNat : Int) = (width.toNat : Int) := by simp
      rw [e]
      ring)
  refine ⟨objs, hrun, ?_, hpt⟩
  rw [hlen]
  have e : ((height - 0).toNat : Int) = (height.toNat : Int) := by simp
  rw [e]
  ring

/-- The constructor returns a game only for `THREADS ≥ 1`. -/
theorem Game.new_threads_pos {THREADS height width : Int} {flip : Nat → Bool} {g : Game}
    (h : Game.new THREADS height width flip = some g) : 1 ≤ THREADS := by
  unfold Game.new at h
  by_contra hc
  by_cases hneg : THREADS < 0
  · rw [if_pos hneg] at h
    exact Option.noConfusion h
  · have hz : THREADS = 0 := by omega
    subst hz
    simp [thread_ranges, int_div] at h

/-- The constructor for `THREADS ≥ 1`: it returns the game made of the seeded
cells and of the worker ranges. -/
theorem Game.new_closed (THREADS height width : Int) (flip : Nat → Bool)
    (hT : 1 ≤ THREADS) :
    ∃ objs rs, seed_cells flip height width = some objs ∧
      thread_ranges THREADS height = some rs ∧
      Game.new THREADS height width flip = some
        { m_height := height, m_width := width, m_obj := objs, m_threads := rs } := by
  obtain ⟨objs, hobjs, _, _⟩ := seed_cells_closed flip height width
  obtain ⟨rs, hrs, _, _⟩ := thread_ranges_closed THREADS height hT
  refine ⟨objs, rs, hobjs, hrs, ?_⟩
  unfold Game.new
  rw [if_neg (by omega), hobjs, hrs]
  rfl

/-- A freshly constructed game with positive dimensions is well formed and
partitioned, and every cell has `next = false`. -/
theorem Game.new_fresh {THREADS height width : Int} {flip : Nat → Bool} {g : Game}
    (h : Game.new THREADS height width flip = some g) (hh : 0 < height) (hw : 0 < width) :
    g.WF ∧ g.Partitioned ∧ g.m_height = height ∧ g.m_width = width ∧
      (∀ i, i < g.m_obj.length → g.m_obj[i]? = some (Lifeform.new (flip i))) := by
  have hT := Game.new_threads_pos h
  obtain ⟨objs, rs, hobjs, hrs, hnew⟩ := Game.new_closed THREADS height width flip hT
  rw [h] at hnew
  obtain rfl := Option.some.inj hnew
  obtain ⟨objs1, hobjs1, hlen, hpt⟩ := seed_cells_closed flip height width
  rw [hobjs] at hobjs1
  obtain rfl := Option.some.inj hobjs1
  refine ⟨⟨hw, hh, ?_⟩, thread_ranges_cover hT hh.le hrs |>.imp
    (fun hb r hr => ⟨(hb r hr).1, (hb r hr).2.2⟩) id, rfl, rfl, hpt⟩
  simp only
  rw [hlen]
  have e1 : (height.toNat : Int) = height := by omega
  have e2 : (width.toNat : Int) = width := by omega
  rw [e1, e2, mul_comm]

/-! ## Reachable start-of-phase states -/

theorem Game.new_startInv {THREADS height width : Int} {flip : Nat → Bool} {g : Game}
    (h : Game.new THREADS height width flip = some g) (hh : 0 < height) (hw : 0 < width) :
    Game.StartInv height width g := by
  obtain ⟨wf, hp, e1, e2, hpt⟩ := Game.new_fresh h hh hw
  refine ⟨wf, hp, e1, e2, ?_⟩
  intro x y o hx0 hx hy0 hy ho _
  have hi0 := idx_nonneg wf.width_pos hx0 hy0
  have hi1 : y * g.m_width + x < (g.m_obj.length : Int) := by
    rw [wf.size_eq]; exact idx_lt hx hy wf.width_pos
  have hc := g.cell_at_eq_getElem? (x := x) (y := y) (i := (y * g.m_width + x).toNat)
    (by omega)
  rw [hc, hpt _ (by omega)] at ho
  rw [← Option.some.inj ho]
  rfl

theorem Game.generation_startInv {height width : Int} {g g1 : Game}
    (hI : Game.StartInv height width g) (hg : g.generation = some g1) :
    Game.StartInv height width g1 := by
  obtain ⟨wf, hp, e1, e2, _⟩ := hI
  obtain ⟨g2, hrun, hU⟩ := wf.generation_updated hp
  rw [hg] at hrun
  obtain rfl := Option.some.inj hrun
  have hh1 : g1.m_height = g.m_height := hU.1.1
  have hw1 : g1.m_width = g.m_width := hU.1.2.1
  refine ⟨hU.1.wf wf, hU.partitioned hp, hh1.trans e1, hw1.trans e2, ?_⟩
  intro x y o1 hx0 hx hy0 hy ho1 hdead
  obtain ⟨o, ho⟩ := wf.cell_at_some hx0 (by omega) hy0 (by omega)
  have hc := (hU.2 x y o hx0 (by omega) hy0 (by omega) ho).1 trivial
  rw [ho1] at hc
  obtain rfl := Option.some.inj hc
  exact hdead

theorem Game.generations_startInv {height width : Int} :
    ∀ (n : Nat) (g g1 : Game), Game.StartInv height width g →
      Game.generations n g = some g1 → Game.StartInv height width g1 := by
  intro n
  induction n with
  | zero =>
    intro g g1 hI hg
    obtain rfl := Option.some.inj hg
    exact hI
  | succ k ih =>
    intro g g1 hI hg
    unfold Game.generations at hg
    obtain ⟨g2, hrun, _⟩ := hI.1.generation_updated hI.2.1
    rw [hrun] at hg
    exact ih g2 g1 (Game.generation_startInv hI hrun) hg

theorem Game.Reachable.startInv {THREADS height width : Int} {flip : Nat → Bool}
    {g : Game} (h : Game.Reachable THREADS height width flip g)
    (hh : 0 < height) (hw : 0 < width) : Game.StartInv height width g := by
  obtain ⟨g0, n, hnew, hgen⟩ := h
  exact Game.generations_startInv n g0 g (Game.new_startInv hnew hh hw) hgen

/-- The effect of `set_alive_at` at the start of a compute phase. -/
theorem Game.WF.set_alive_at_cell {g : Game} (wf : g.WF) {x y : Int}
    (hx0 : 0 ≤ x) (hx : x < g.m_width) (hy0 : 0 ≤ y) (hy : y < g.m_height)
    {o : Lifeform} (ho : g.cell_at x y = some o) :
    ∃ g1, g.set_alive_at x y = some g1 ∧
      g1.cell_at x y = some (o.decide_next (g.torus_neighbours x y)) := by
  obtain ⟨g1, hrun, hU⟩ := (Game.Updated.nothing g g.compute_cell).set_alive_at wf hx0 hx hy0 hy
    (fun h => h)
  exact ⟨g1, hrun, (hU.2 x y o hx0 hx hy0 hy ho).1 (Or.inr ⟨rfl, rfl⟩)⟩

/-! ## The transition rule for a dead cell -/

/-- C3: in every state at the start of a compute phase that is reachable from
construction (the fresh grid or the grid after any number of complete
generations), for every in-range cell `(x, y)` whose `current` is dead,
`set_alive_at(x, y)` returns and afterwards the cell's `next` is true if and
only if exactly 3 of its 8 toroidal neighbours are alive; otherwise it is false. -/
theorem set_alive_at_dead_cell (THREADS height width : Int) (flip : Nat → Bool)
    (g : Game) (hreach : Game.Reachable THREADS height width flip g) (x y : Int)
    (hx0 : 0 ≤ x) (hx : x < width) (hy0 : 0 ≤ y) (hy : y < height) (o : Lifeform)
    (ho : g.cell_at x y = some o) (hdead : o.current = false) :
    ∃ g1 o1, g.set_alive_at x y = some g1 ∧ g1.cell_at x y = some o1 ∧
      (o1.next = true ↔ g.torus_neighbours x y = 3) ∧
      (g.torus_neighbours x y ≠ 3 → o1.next = false) := by
  obtain ⟨wf, _, e1, e2, hnext⟩ := hreach.startInv (by omega) (by omega)
  have hn : o.next = false := hnext x y o hx0 (by omega) hy0 (by omega) ho hdead
  obtain ⟨g1, hrun, hc⟩ := wf.set_alive_at_cell hx0 (by omega) hy0 (by omega) ho
  refine ⟨g1, _, hrun, hc, ?_, ?_⟩
  · unfold Lifeform.decide_next
    rw [hdead]
    by_cases h3 : g.torus_neighbours x y = 3
    · simp [h3]
    · have h3' : ¬ ((g.torus_neighbours x y : Int) = 3) := by omega
      simp [h3, h3', hn]
  · intro h3
    have h3' : ¬ ((g.torus_neighbours x y : Int) = 3) := by omega
    unfold Lifeform.decide_next
    rw [hdead]
    simp [h3', hn]

/-- Witness of C3: the dead cell `(1, 0)` of the 3x3 test grid after one
generation. -/
theorem set_alive_at_dead_cell_witness :
    Game.Reachable 1 3 3 blinker_seed blinker_grid_next ∧
    blinker_grid_next.cell_at 1 0 = some ⟨false, false⟩ ∧
    ∃ g1 o1, blinker_grid_next.set_alive_at 1 0 = some g1 ∧ g1.cell_at 1 0 = some o1 ∧
      (o1.next = true ↔ blinker_grid_next.torus_neighbours 1 0 = 3) ∧
      (blinker_grid_next.torus_neighbours 1 0 ≠ 3 → o1.next = false) :=
  ⟨⟨blinker_grid, 1, by decide, by decide⟩, by decide,
    set_alive_at_dead_cell 1 3 3 blinker_seed blinker_grid_next
      ⟨blinker_grid, 1, by decide, by decide⟩ 1 0 (by decide) (by decide) (by decide)
      (by decide) ⟨false, false⟩ (by decide) rfl⟩

/-! ## The first generation of a fresh grid -/

/-- C1 (evaluation at the failing input): the 3x3 grid whose rows are dead,
alive, dead is what the constructor builds from the seed; its Game-of-Life
successor on the torus has all nine cells alive; but one full generation of the
engine, with one worker as with three, leaves the `current` values alive, dead,
alive in every row: the alive cells with two alive neighbours die, because
their `next` was constructed `false` and `set_alive_at` does not assign it. -/
theorem generation_fresh_blinker :
    Game.new 1 3 3 blinker_seed = some blinker_grid ∧
    blinker_grid.life_successors
      = [true, true, true, true, true, true, true, true, true] ∧
    blinker_grid.generation.map (fun g => g.m_obj.map Lifeform.current)
      = some [true, false, true, true, false, true, true, false, true] ∧
    ((Game.new 3 3 3 blinker_seed).bind Game.generation).map
        (fun g => g.m_obj.map Lifeform.current)
      = some [true, false, true, true, false, true, true, false, true] := by
  refine ⟨by decide, by decide, by decide, by decide⟩

/-! ## The transition rule for an alive cell -/

/-- C2 (evaluation at the failing input): the freshly seeded 3x3 test grid is a
reachable start-of-phase state, its cell `(1, 0)` is alive and exactly 2 of its
8 toroidal neighbours are alive, yet after `set_alive_at(1, 0)` the cell's
`next` is false. -/
theorem set_alive_at_alive_fresh_blinker :
    Game.Reachable 1 3 3 blinker_seed blinker_grid ∧
    blinker_grid.cell_at 1 0 = some ⟨true, false⟩ ∧
    blinker_grid.torus_neighbours 1 0 = 2 ∧
    (blinker_grid.set_alive_at 1 0).bind (fun g => g.cell_at 1 0)
      = some ⟨true, false⟩ :=
  ⟨⟨blinker_grid, 0, by decide, rfl⟩, by decide, by decide, by decide⟩

/-! ## Construction with invalid parameters -/

/-- C7 (counterexample): the constructor does not reject every construction with
`width ≤ 0`, `height ≤ 0` or `THREADS = 0`: with two workers, height 3 and
width 0 it returns a game with an empty cell array and two worker ranges. -/
theorem Game.new_zero_width_accepted :
    ¬ (∀ (THREADS height width : Int) (flip : Nat → Bool),
        (width ≤ 0 ∨ height ≤ 0 ∨ THREADS = 0) →
          Game.new THREADS height width flip = none) ∧
    Game.new 2 3 0 blinker_seed = some
      { m_height := 3, m_width := 0, m_obj := [], m_threads := [(0, 1), (1, 3)] } := by
  have h : Game.new 2 3 0 blinker_seed = some
      { m_height := 3, m_width := 0, m_obj := [], m_threads := [(0, 1), (1, 3)] } := by
    decide
  refine ⟨fun hall => ?_, h⟩
  have hnone := hall 2 3 0 blinker_seed (Or.inl le_rfl)
  rw [h] at hnone
  exact Option.noConfusion hnone

/-- C7 (amended): for `THREADS ≥ 1` the constructor validates neither
dimension: it returns a game for every height and width, also when the width or
the height is not positive, with the given dimensions and one worker range per
worker; the cell array is empty when the width or the height is not positive. -/
theorem Game.new_accepts_any_dimensions (THREADS height width : Int)
    (flip : Nat → Bool) (hT : 1 ≤ THREADS) :
    ∃ g, Game.new THREADS height width flip = some g ∧
      g.m_height = height ∧ g.m_width = width ∧
      g.m_threads.length = THREADS.toNat ∧
      ((width ≤ 0 ∨ height ≤ 0) → g.m_obj = []) := by
  obtain ⟨objs, rs, hobjs, hrs, hnew⟩ := Game.new_closed THREADS height width flip hT
  obtain ⟨rs1, hrs1, hlen, _⟩ := thread_ranges_closed THREADS height hT
  rw [hrs] at hrs1
  obtain rfl := Option.some.inj hrs1
  obtain ⟨objs1, hobjs1, hlen1, _⟩ := seed_cells_closed flip height width
  rw [hobjs] at hobjs1
  obtain rfl := Option.some.inj hobjs1
  refine ⟨_, hnew, rfl, rfl, hlen, ?_⟩
  intro hbad
  have hz : (objs.length : Int) = 0 := by
    rw [hlen1]
    rcases hbad with hw | hh
    · rw [Int.toNat_of_nonpos hw]; simp
    · rw [Int.toNat_of_nonpos hh]; simp
  show objs = []
  exact List.length_eq_zero.mp (by omega)

/-- Witness of C7 (amended): two workers, height 3, width 0. -/
theorem Game.new_accepts_any_dimensions_witness :
    (1 : Int) ≤ 2 ∧
    ∃ g, Game.new 2 3 0 blinker_seed = some g ∧
      g.m_height = 3 ∧ g.m_width = 0 ∧
      g.m_threads.length = (2 : Int).toNat ∧
      (((0 : Int) ≤ 0 ∨ (3 : Int) ≤ 0) → g.m_obj = []) :=
  ⟨by decide, Game.new_accepts_any_dimensions 2 3 0 blinker_seed (by decide)⟩

/-! ## Worker activity between two ticks -/

/-- C8 (evaluation at the failing schedule): on the 3x3 test grid with one
worker, the worker computes and commits the first generation, the controller
calls `tick()` and `tick()` returns. Afterwards, with no further call of
`tick()`, the worker passes `m_next_state_barrier` and `m_update_barrier`
(whose parties are the workers only), and computes and commits a second
generation: it writes `current`, and the grid read after these steps differs
from the grid read right after `tick()` returned. -/
theorem worker_commits_between_ticks :
    ∃ e1 e2,
      Engine.run [Event.pass_next_state_barrier, Event.worker 0,
          Event.pass_update_barrier, Event.worker 0,
          Event.call_tick, Event.pass_tick_barrier] (Engine.start blinker_grid)
        = some e1 ∧
      e1.in_tick = false ∧ e1.ticks_returned = 1 ∧
      Engine.run [Event.pass_next_state_barrier, Event.worker 0,
          Event.pass_update_barrier, Event.worker 0] e1 = some e2 ∧
      e2.in_tick = false ∧ e2.ticks_returned = 1 ∧
      e1.snapshot = [true, false, true, true, false, true, true, false, true] ∧
      e2.snapshot = [false, false, false, false, false, false, false, false, false] ∧
      e1.snapshot ≠ e2.snapshot := by
  refine ⟨{ game := blinker_grid_next,
            workers := [WorkerPc.next_state_barrier],
            in_tick := false, ticks_returned := 1 },
    { game := { blinker_grid_next with
                m_obj := List.replicate 9 ⟨false, false⟩ },
      workers := [WorkerPc.tick_barrier],
      in_tick := false, ticks_returned := 1 }, ?_, rfl, rfl, ?_, rfl, rfl, ?_, ?_, ?_⟩
  · decide
  · decide
  · decide
  · decide
  · decide

/-! ## From in-range cells to members of the cell array -/

/-- Position `i` of the cell array of a well-formed grid is the cell in column
`i % m_width` of row `i / m_width`. -/
theorem Game.WF.index_coords {g : Game} (wf : g.WF) {i : Nat} (hi : i < g.m_obj.length) :
    0 ≤ (i : Int) % g.m_width ∧ (i : Int) % g.m_width < g.m_width ∧
      0 ≤ (i : Int) / g.m_width ∧ (i : Int) / g.m_width < g.m_height ∧
      (i : Int) / g.m_width * g.m_width + (i : Int) % g.m_width = (i : Int) := by
  have hw := wf.width_pos
  refine ⟨Int.emod_nonneg _ (by omega), Int.emod_lt_of_pos _ hw,
    Int.ediv_nonneg (by omega) hw.le, ?_, ?_⟩
  · have hlt : (i : Int) < g.m_height * g.m_width := by
      have := wf.size_eq
      rw [mul_comm]
      omega
    exact Int.ediv_lt_of_lt_mul hw hlt
  · rw [mul_comm]
    exact Int.ediv_add_emod _ _

/-- A property of all in-range cells of a well-formed grid holds of every
member of its cell array. -/
theorem Game.WF.forall_mem_of_cells {g : Game} (wf : g.WF) (p : Lifeform → Prop)
    (h : ∀ x y o, 0 ≤ x → x < g.m_width → 0 ≤ y → y < g.m_height →
      g.cell_at x y = some o → p o) : ∀ o ∈ g.m_obj, p o := by
  intro o ho
  obtain ⟨i, hi⟩ := List.mem_iff_getElem?.mp ho
  have hlt : i < g.m_obj.length := by
    by_contra hc
    rw [List.getElem?_eq_none (by omega)] at hi
    exact Option.noConfusion hi
  obtain ⟨hx0, hx, hy0, hy, hxy⟩ := wf.index_coords hlt
  exact h _ _ o hx0 hx hy0 hy (by rw [g.cell_at_eq_getElem? hxy]; exact hi)

/-- A property of every member of the cell array holds of every cell read by
coordinates. -/
theorem Game.cell_at_mem (g : Game) {x y : Int} {o : Lifeform}
    (h : g.cell_at x y = some o) : o ∈ g.m_obj := by
  unfold Game.cell_at Game.cell? at h
  split_ifs at h
  exact List.getElem?_mem h

/-- After the transformer of a full generation every in-range cell has
`next = current`. -/
theorem Game.Updated.next_eq_current {g g2 : Game} (wf : g.WF)
    (hU : g.Updated g2 (fun _ _ => True) g.generation_cell) :
    ∀ o ∈ g2.m_obj, o.next = o.current := by
  have wf2 : g2.WF := hU.1.wf wf
  have hh : g2.m_height = g.m_height := hU.1.1
  have hw : g2.m_width = g.m_width := hU.1.2.1
  apply wf2.forall_mem_of_cells
  intro x y o2 hx0 hx hy0 hy ho2
  obtain ⟨o, ho⟩ := wf.cell_at_some hx0 (by omega) hy0 (by omega)
  have hc := (hU.2 x y o hx0 (by omega) hy0 (by omega) ho).1 trivial
  rw [ho2] at hc
  obtain rfl := Option.some.inj hc
  rfl

/-- After at least one complete generation from a well-formed, partitioned
grid every cell has `next = current`. -/
theorem Game.generations_succ_next_eq {height width : Int} :
    ∀ (n : Nat) (g g1 : Game), Game.StartInv height width g →
      Game.generations (n + 1) g = some g1 → ∀ o ∈ g1.m_obj, o.next = o.current := by
  intro n
  induction n with
  | zero =>
    intro g g1 hI hg
    obtain ⟨g2, hrun, hU⟩ := hI.1.generation_updated hI.2.1
    simp only [Game.generations, hrun, Option.some_bind, Option.some.injEq] at hg
    subst hg
    exact hU.next_eq_current hI.1
  | succ k ih =>
    intro g g1 hI hg
    obtain ⟨g2, hrun, _⟩ := hI.1.generation_updated hI.2.1
    have hg' : Game.generations (k + 1) g2 = some g1 := by
      rw [Game.generations, hrun] at hg
      exact hg
    exact ih g2 g1 (Game.generation_startInv hI hrun) hg'

/-! ## The invariant `next = current` -/

/-- The invariant `next = current` at the generation boundaries: for every
well-formed grid, whatever its `current` and `next` fields hold, and every list
of worker row ranges inside the grid whose union is `[0, m_height)`, one full
generation (`calculate_next_state` on every range, then `update_state` on every
range) returns and leaves `next = current` in every cell. Hence every state
after at least one complete generation of a constructed game has
`next = current` in every cell; a freshly constructed grid does not: each of
its alive cells has `next = false`. Nothing is said here about the states in
the middle of a generation. -/
theorem generation_next_eq_current (g : Game) (wf : g.WF) (rs : List (Int × Int))
    (hb : ∀ r ∈ rs, 0 ≤ r.1 ∧ r.2 ≤ g.m_height)
    (hc : ∀ y, in_ranges rs y ↔ (0 ≤ y ∧ y < g.m_height)) :
    (∃ g1 g2, Game.run_phase Game.calculate_next_state rs g = some g1 ∧
      Game.run_phase Game.update_state rs g1 = some g2 ∧
      ∀ o ∈ g2.m_obj, o.next = o.current) ∧
    (∀ (THREADS height width : Int) (flip : Nat → Bool) (g0 g3 : Game) (n : Nat),
      0 < height → 0 < width → Game.new THREADS height width flip = some g0 →
      Game.generations (n + 1) g0 = some g3 → ∀ o ∈ g3.m_obj, o.next = o.current) ∧
    (∀ (THREADS height width : Int) (flip : Nat → Bool) (g0 : Game) (i : Nat),
      0 < height → 0 < width → Game.new THREADS height width flip = some g0 →
      i < g0.m_obj.length → flip i = true →
      ∃ o, g0.m_obj[i]? = some o ∧ o.current = true ∧ o.next = false ∧
        o.next ≠ o.current) := by
  refine ⟨?_, ?_, ?_⟩
  · obtain ⟨g1, g2, hrun1, hrun2, hU⟩ := wf.two_phases rs rs hb hb
      (fun y hy0 hy => (hc y).mpr ⟨hy0, hy⟩) (fun y hy0 hy => (hc y).mpr ⟨hy0, hy⟩)
    exact ⟨g1, g2, hrun1, hrun2, hU.next_eq_current wf⟩
  · intro THREADS height width flip g0 g3 n hh hw hnew hgen
    exact Game.generations_succ_next_eq n g0 g3 (Game.new_startInv hnew hh hw) hgen
  · intro THREADS height width flip g0 i hh hw hnew hi hflip
    obtain ⟨_, _, _, _, hpt⟩ := Game.new_fresh hnew hh hw
    refine ⟨Lifeform.new (flip i), hpt i hi, ?_, rfl, ?_⟩
    · simp [Lifeform.new, hflip]
    · simp [Lifeform.new, hflip]

/-- The invariant at the generation boundaries on the 3x2 grid with unrelated
`next` fields, one row per worker. -/
theorem generation_next_eq_current_witness :
    (∃ g1 g2, Game.run_phase Game.calculate_next_state [(0, 1), (1, 2)] uneven_grid
        = some g1 ∧
      Game.run_phase Game.update_state [(0, 1), (1, 2)] g1 = some g2 ∧
      ∀ o ∈ g2.m_obj, o.next = o.current) ∧
    (∀ (THREADS height width : Int) (flip : Nat → Bool) (g0 g3 : Game) (n : Nat),
      0 < height → 0 < width → Game.new THREADS height width flip = some g0 →
      Game.generations (n + 1) g0 = some g3 → ∀ o ∈ g3.m_obj, o.next = o.current) ∧
    (∀ (THREADS height width : Int) (flip : Nat → Bool) (g0 : Game) (i : Nat),
      0 < height → 0 < width → Game.new THREADS height width flip = some g0 →
      i < g0.m_obj.length → flip i = true →
      ∃ o, g0.m_obj[i]? = some o ∧ o.current = true ∧ o.next = false ∧
        o.next ≠ o.current) :=
  generation_next_eq_current uneven_grid ⟨by decide, by decide, by decide⟩
    [(0, 1), (1, 2)] (by decide)
    (by
      intro y
      simp only [in_ranges, List.mem_cons, List.mem_singleton, List.not_mem_nil, or_false,
        uneven_grid]
      constructor
      · rintro ⟨r, hr | hr, h1, h2⟩ <;> subst hr <;> simp only at h1 h2 <;> omega
      · rintro ⟨h0, h2⟩
        by_cases hy : y < 1
        · exact ⟨(0, 1), Or.inl rfl, h0, hy⟩
        · exact ⟨(1, 2), Or.inr rfl, by simp only; omega, h2⟩)

/-! ## The invariant `next = current` between two ticks -/

/-- C11 (evaluation at the failing schedule): on the 3x3 test grid with one
worker, in the state in which the first `tick()` returns every cell has
`next = current`. From there, with no further call of `tick()`, the worker
passes `m_next_state_barrier` (whose parties are the workers only) and runs
`calculate_next_state` on its rows. In the state reached the controller is
outside `tick()` and one call has returned, so it can observe the grid, and six
of the nine cells have `next ≠ current`: the invariant does not hold in every
state the controller can observe after a tick. -/
theorem next_differs_between_ticks :
    ∃ e1 e2,
      Engine.run [Event.pass_next_state_barrier, Event.worker 0,
          Event.pass_update_barrier, Event.worker 0,
          Event.call_tick, Event.pass_tick_barrier] (Engine.start blinker_grid)
        = some e1 ∧
      e1.in_tick = false ∧ e1.ticks_returned = 1 ∧
      (∀ o ∈ e1.game.m_obj, o.next = o.current) ∧
      Engine.run [Event.pass_next_state_barrier, Event.worker 0] e1 = some e2 ∧
      e2.in_tick = false ∧ e2.ticks_returned = 1 ∧
      e2.game.m_obj = [⟨true, false⟩, ⟨false, false⟩, ⟨true, false⟩,
                        ⟨true, false⟩, ⟨false, false⟩, ⟨true, false⟩,
                        ⟨true, false⟩, ⟨false, false⟩, ⟨true, false⟩] ∧
      (e2.game.m_obj.filter (fun o => o.next != o.current)).length = 6 ∧
      ¬ (∀ o ∈ e2.game.m_obj, o.next = o.current) := by
  refine ⟨{ game := blinker_grid_next,
            workers := [WorkerPc.next_state_barrier],
            in_tick := false, ticks_returned := 1 },
    { game := { blinker_grid_next with
                m_obj := [⟨true, false⟩, ⟨false, false⟩, ⟨true, false⟩,
                          ⟨true, false⟩, ⟨false, false⟩, ⟨true, false⟩,
                          ⟨true, false⟩, ⟨false, false⟩, ⟨true, false⟩] },
      workers := [WorkerPc.update_barrier],
      in_tick := false, ticks_returned := 1 }, ?_, rfl, rfl, ?_, ?_, rfl, rfl, rfl, ?_, ?_⟩
  · decide
  · decide
  · decide
  · decide
  · decide

/-! ## Agreement with Conway's rule -/

/-- On a cell with `next = current` the value `set_alive_at` leaves in `next`
is the one of Conway's rule. -/
theorem Lifeform.decide_next_life (o : Lifeform) (n : Nat) (h : o.next = o.current) :
    (o.decide_next (n : Int)).next = life_rule o.current n := by
  obtain ⟨c, nx⟩ := o
  simp only at h
  subst h
  unfold Lifeform.decide_next life_rule
  cases nx
  · by_cases h3 : n = 3
    · simp [h3]
    · have h3' : ¬ ((n : Int) = 3) := by omega
      simp [h3, h3']
  · by_cases h3 : n = 3
    · simp [h3]
    · by_cases h2 : n = 2
      · simp [h2]
      · have h3' : ¬ ((n : Int) = 3) := by omega
        have h2' : ¬ ((n : Int) = 2) := by omega
        simp [h3, h2, h3', h2']

/-- The torus read at an in-range position is the cell itself. -/
theorem Game.alive_on_torus_of_cell_at {g : Game} {x y : Int}
    (hx0 : 0 ≤ x) (hx : x < g.m_width) (hy0 : 0 ≤ y) (hy : y < g.m_height)
    {o : Lifeform} (ho : g.cell_at x y = some o) : g.alive_on_torus x y = o.current := by
  unfold Game.alive_on_torus
  rw [Int.emod_eq_of_lt hx0 hx, Int.emod_eq_of_lt hy0 hy, ho]

/-- On a grid with `next = current` in every cell the transformer of a full
generation leaves the Game-of-Life successor in `current`. -/
theorem Game.generation_cell_life {g : Game} (hsync : ∀ o ∈ g.m_obj, o.next = o.current)
    {x y : Int} (hx0 : 0 ≤ x) (hx : x < g.m_width) (hy0 : 0 ≤ y) (hy : y < g.m_height)
    {o : Lifeform} (ho : g.cell_at x y = some o) :
    (g.generation_cell x y o).current = g.life_successor x y := by
  unfold Game.life_successor
  rw [Game.alive_on_torus_of_cell_at hx0 hx hy0 hy ho]
  exact Lifeform.decide_next_life o _ (hsync o (g.cell_at_mem ho))

/-- After the transformer of a full generation on a grid with `next = current`
the `current` fields are the Game-of-Life successor generation. -/
theorem Game.Updated.life_successors {g g2 : Game} (wf : g.WF)
    (hsync : ∀ o ∈ g.m_obj, o.next = o.current)
    (hU : g.Updated g2 (fun _ _ => True) g.generation_cell) :
    g2.m_obj.map Lifeform.current = g.life_successors := by
  have hw : g2.m_width = g.m_width := hU.1.2.1
  have hl : g2.m_obj.length = g.m_obj.length := hU.1.2.2.2
  apply List.ext_getElem?
  intro i
  unfold Game.life_successors
  rw [List.getElem?_map, List.getElem?_map]
  by_cases hi : i < g.m_obj.length
  · obtain ⟨hx0, hx, hy0, hy, hxy⟩ := wf.index_coords hi
    obtain ⟨o, ho⟩ := wf.cell_at_some hx0 hx hy0 hy
    have hc := (hU.2 _ _ o hx0 hx hy0 hy ho).1 trivial
    rw [g2.cell_at_eq_getElem? (show _ * g2.m_width + _ = (i : Int) by rw [hw]; exact hxy)] at hc
    rw [hc, List.getElem?_range hi]
    simp only [Option.map_some']
    rw [Game.generation_cell_life hsync hx0 hx hy0 hy ho]
  · rw [List.getElem?_eq_none (by omega), List.getElem?_eq_none (by simpa using hi)]
    rfl

theorem life_rule_alive (n : Nat) : life_rule true n = true ↔ (n = 2 ∨ n = 3) := by
  simp [life_rule]

theorem life_rule_dead (n : Nat) : life_rule false n = true ↔ n = 3 := by
  simp [life_rule]

/-- C12: for every well-formed grid in which every cell has `next = current`
and every list of worker row ranges inside the grid whose union is
`[0, m_height)`, one full generation (`calculate_next_state` on every range,
then `update_state` on every range) returns and leaves in every cell's
`current` the Game-of-Life successor of the previous `current` values on the
torus: an alive cell stays alive iff 2 or 3 of its 8 wrapped neighbours are
alive, a dead cell becomes alive iff exactly 3 are. In particular every
generation of a constructed game after the first one follows Conway's rule. -/
theorem generation_life_successor (g : Game) (wf : g.WF)
    (hsync : ∀ o ∈ g.m_obj, o.next = o.current) (rs : List (Int × Int))
    (hb : ∀ r ∈ rs, 0 ≤ r.1 ∧ r.2 ≤ g.m_height)
    (hc : ∀ y, in_ranges rs y ↔ (0 ≤ y ∧ y < g.m_height)) :
    (∃ g1 g2, Game.run_phase Game.calculate_next_state rs g = some g1 ∧
      Game.run_phase Game.update_state rs g1 = some g2 ∧
      g2.m_obj.map Lifeform.current = g.life_successors ∧
      ∀ x y o, 0 ≤ x → x < g.m_width → 0 ≤ y → y < g.m_height →
        g.cell_at x y = some o →
        ∃ o2, g2.cell_at x y = some o2 ∧
          (o.current = true →
            (o2.current = true ↔
              (g.torus_neighbours x y = 2 ∨ g.torus_neighbours x y = 3))) ∧
          (o.current = false →
            (o2.current = true ↔ g.torus_neighbours x y = 3))) ∧
    (∀ (THREADS height width : Int) (flip : Nat → Bool) (g0 g3 : Game) (n : Nat),
      0 < height → 0 < width → Game.new THREADS height width flip = some g0 →
      Game.generations (n + 1) g0 = some g3 →
      ∃ g4, g3.generation = some g4 ∧
        g4.m_obj.map Lifeform.current = g3.life_successors) := by
  refine ⟨?_, ?_⟩
  · obtain ⟨g1, g2, hrun1, hrun2, hU⟩ := wf.two_phases rs rs hb hb
      (fun y hy0 hy => (hc y).mpr ⟨hy0, hy⟩) (fun y hy0 hy => (hc y).mpr ⟨hy0, hy⟩)
    refine ⟨g1, g2, hrun1, hrun2, hU.life_successors wf hsync, ?_⟩
    intro x y o hx0 hx hy0 hy ho
    have hcell := (hU.2 x y o hx0 hx hy0 hy ho).1 trivial
    have hlife := Game.generation_cell_life hsync hx0 hx hy0 hy ho
    have htor := Game.alive_on_torus_of_cell_at hx0 hx hy0 hy ho
    refine ⟨_, hcell, ?_, ?_⟩
    · intro halive
      rw [hlife, Game.life_successor, htor, halive]
      exact life_rule_alive _
    · intro hdead
      rw [hlife, Game.life_successor, htor, hdead]
      exact life_rule_dead _
  · intro THREADS height width flip g0 g3 n hh hw hnew hgen
    have hI0 := Game.new_startInv hnew hh hw
    have hI3 := Game.generations_startInv (n + 1) g0 g3 hI0 hgen
    have hs3 := Game.generations_succ_next_eq n g0 g3 hI0 hgen
    obtain ⟨g4, hrun, hU⟩ := hI3.1.generation_updated hI3.2.1
    exact ⟨g4, hrun, hU.life_successors hI3.1 hs3⟩

/-- Witness of C12: the 3x3 test grid after its first generation, one row per
worker. -/
theorem generation_life_successor_witness :
    (∃ g1 g2, Game.run_phase Game.calculate_next_state [(0, 1), (1, 2), (2, 3)]
        blinker_grid_next = some g1 ∧
      Game.run_phase Game.update_state [(0, 1), (1, 2), (2, 3)] g1 = some g2 ∧
      g2.m_obj.map Lifeform.current = blinker_grid_next.life_successors ∧
      ∀ x y o, 0 ≤ x → x < blinker_grid_next.m_width → 0 ≤ y →
        y < blinker_grid_next.m_height → blinker_grid_next.cell_at x y = some o →
        ∃ o2, g2.cell_at x y = some o2 ∧
          (o.current = true →
            (o2.current = true ↔
              (blinker_grid_next.torus_neighbours x y = 2 ∨
                blinker_grid_next.torus_neighbours x y = 3))) ∧
          (o.current = false →
            (o2.current = true ↔ blinker_grid_next.torus_neighbours x y = 3))) ∧
    (∀ (THREADS height width : Int) (flip : Nat → Bool) (g0 g3 : Game) (n : Nat),
      0 < height → 0 < width → Game.new THREADS height width flip = some g0 →
      Game.generations (n + 1) g0 = some g3 →
      ∃ g4, g3.generation = some g4 ∧
        g4.m_obj.map Lifeform.current = g3.life_successors) :=
  generation_life_successor blinker_grid_next ⟨by decide, by decide, by decide⟩
    (by decide) [(0, 1), (1, 2), (2, 3)] (by decide)
    (by
      intro y
      simp only [in_ranges, List.mem_cons, List.mem_singleton, List.not_mem_nil, or_false,
        blinker_grid_next]
      constructor
      · rintro ⟨r, hr | hr | hr, h1, h2⟩ <;> subst hr <;> simp only at h1 h2 <;> omega
      · rintro ⟨h0, h3⟩
        by_cases hy1 : y < 1
        · exact ⟨(0, 1), Or.inl rfl, h0, hy1⟩
        · by_cases hy2 : y < 2
          · exact ⟨(1, 2), Or.inr (Or.inl rfl), by simp only; omega, hy2⟩
          · exact ⟨(2, 3), Or.inr (Or.inr rfl), by simp only; omega, h3⟩)

end FastLife
